import Mathlib

/-!
# WorkspaceReimburseView: the rate input of the reimbursement settings page

A shallow embedding of `src/pages/workspace/reimburse/WorkspaceReimburseView.js`:
the conversions between the display string of the mileage rate and the number
that is sent to the server (`getNumericValue`, `getRateDisplayValue`), the
validation of keystrokes (`setRate`), the state computed from the policy
(`constructor`, `componentDidUpdate`), the commit (`updateRateValue`) and the
debounced scheduling of that commit.

JavaScript strings are lists of characters (the strings of the rate input are
in the Basic Multilingual Plane, where characters and UTF-16 code units are the
same), JavaScript numbers are IEEE-754 binary64 values represented exactly, and
`undefined` is `none`.
-/

namespace Reimburse

/-! ## JavaScript strings -/

/-- A JavaScript string, as the list of its characters. -/
abbrev JSString := List Char

/-- The decimal digit character of `n` (for `n < 10`). -/
def digitChar (n : Nat) : Char := Char.ofNat (n + 48)

/-- The value of a decimal digit character. -/
def digitVal (c : Char) : Nat := c.toNat - 48

/-- The number denoted by a string of decimal digits. -/
def digitsValue (ds : JSString) : Nat := ds.foldl (fun acc c => 10 * acc + digitVal c) 0

/-- Worker of `natToDigits`: the digits of `n` put in front of `acc`. -/
def natToDigitsAux : Nat → Nat → JSString → JSString
  | 0, _, acc => acc
  | fuel + 1, n, acc =>
    if n < 10 then digitChar n :: acc
    else natToDigitsAux fuel (n / 10) (digitChar (n % 10) :: acc)

/-- The decimal representation of a natural number, without leading zeros
(`"0"` for zero). -/
def natToDigits (n : Nat) : JSString := natToDigitsAux (n + 1) n []

/-- The JavaScript `String.prototype.replace(a, b)` for one-character strings `a`
and `b`: only the first occurrence of `a` is replaced. -/
def replaceFirst (a b : Char) : JSString → JSString
  | [] => []
  | c :: r => if c = a then b :: r else c :: replaceFirst a b r

/-! ## JavaScript numbers -/

/-- The number of units of `2^-1074` in `1`. Every finite binary64 value is an
integer multiple of `2^-1074`, the smallest positive subnormal. -/
def UNITS : Nat := 2 ^ 1074

/-- A JavaScript number. The finite value `fin neg u` is `± u * 2^-1074`; the
values of `u` that occur are the ones binary64 can represent (`u < 2^53`, or a
53-bit integer times a power of two, below `2^2098`). -/
inductive JSNumber
  | nan
  | inf (neg : Bool)
  | fin (neg : Bool) (units : Nat)
  deriving DecidableEq

/-- Worker of `log2`. -/
def log2Aux : Nat → Nat → Nat
  | 0, _ => 0
  | fuel + 1, n => if 2 ≤ n then log2Aux fuel (n / 2) + 1 else 0

/-- The position of the leading bit: `2 ^ log2 n ≤ n < 2 ^ (log2 n + 1)` for
`n ≠ 0`, and `log2 0 = 0`. -/
def log2 (n : Nat) : Nat := log2Aux n n

/-- The integer nearest to `a / b`, ties going to the even integer. -/
def roundHalfEven (a b : Nat) : Nat :=
  let q := a / b
  let r := a % b
  if 2 * r < b then q else if b < 2 * r then q + 1 else if q % 2 = 0 then q else q + 1

/-- The binary64 value nearest to the rational `± num / den` (round to nearest,
ties to even; overflow gives an infinity). In units of `2^-1074` the quotient is
`num * UNITS / den`; below `2^53` units the representable values are the
integers, and in the binade `[2^l, 2^(l+1))` they are the multiples of
`2^(l-52)`. -/
def roundToDouble (neg : Bool) (num den : Nat) : JSNumber :=
  let a := num * UNITS
  let sh := log2 (a / den) - 52
  let m := roundHalfEven a (den * 2 ^ sh) * 2 ^ sh
  if 2 ^ 2098 ≤ m then .inf neg else .fin neg m

/-- The number value of a natural number. -/
def JSNumber.ofNat (n : Nat) : JSNumber := roundToDouble false n 1

/-- The JavaScript `x / k` for a positive integer constant `k` that binary64
represents exactly. -/
def JSNumber.divNat (x : JSNumber) (k : Nat) : JSNumber :=
  match x with
  | .nan => .nan
  | .inf neg => .inf neg
  | .fin neg u => roundToDouble neg u (UNITS * k)

/-- The JavaScript `x * k` for a positive integer constant `k` that binary64
represents exactly. -/
def JSNumber.mulNat (x : JSNumber) (k : Nat) : JSNumber :=
  match x with
  | .nan => .nan
  | .inf neg => .inf neg
  | .fin neg u => roundToDouble neg (u * k) UNITS

/-- The rational `s * 10^e` as a fraction of natural numbers. -/
def decimalFraction (s : Nat) (e : Int) : Nat × Nat :=
  if 0 ≤ e then (s * 10 ^ e.toNat, 1) else (s, 10 ^ (-e).toNat)

/-! ### Number to string -/

/-- Worker of `decimalExponent` for values below one: the number of zeros
between the decimal point and the first significant digit. -/
def leadingZeros : Nat → Nat → Nat
  | 0, _ => 0
  | fuel + 1, u => if UNITS ≤ u * 10 then 0 else leadingZeros fuel (u * 10) + 1

/-- The integer `n` with `10^(n-1) ≤ x < 10^n`, for the positive value `x` of
`u` units. -/
def decimalExponent (u : Nat) : Int :=
  if UNITS ≤ u then ((natToDigits (u / UNITS)).length : Int)
  else - (leadingZeros 400 u : Int)

/-- The integer part of `x * 10^e`, for the value `x` of `u` units. -/
def scaledFloor (u : Nat) (e : Int) : Nat :=
  if 0 ≤ e then u * 10 ^ e.toNat / UNITS else u / (UNITS * 10 ^ (-e).toNat)

/-- Twice the distance between `s * 10^e` and the value of `u` units, times the
common denominator `UNITS * den`, where `num / den` is `s * 10^e`. -/
def decimalDistance (u s : Nat) (e : Int) : Nat :=
  let f := decimalFraction s e
  if f.1 * UNITS ≤ u * f.2 then u * f.2 - f.1 * UNITS else f.1 * UNITS - u * f.2

/-- The `k`-digit decimals next to the value of `u` units that binary64 reads
back as `u`: of `s * 10^(n-k)` with `s` the integer part of `x * 10^(k-n)` or
its successor, the one nearest to `x` (the even `s` on a tie). -/
def shortestCandidate (u : Nat) (n : Int) (k : Nat) : Option Nat :=
  let e : Int := n - k
  let lo := scaledFloor u (-e)
  let ok := fun s => decide (roundToDouble false (decimalFraction s e).1 (decimalFraction s e).2
    = JSNumber.fin false u)
  match ok lo, ok (lo + 1) with
  | true, true =>
    if decimalDistance u lo e < decimalDistance u (lo + 1) e then some lo
    else if decimalDistance u (lo + 1) e < decimalDistance u lo e then some (lo + 1)
    else if lo % 2 = 0 then some lo else some (lo + 1)
  | true, false => some lo
  | false, true => some (lo + 1)
  | false, false => none

/-- Worker of `shortestDigits`: tries `k`, `k + 1`, ... significant digits. -/
def shortestDigitsAux (u : Nat) (n : Int) : Nat → Nat → Nat × Nat
  | 0, k => (scaledFloor u (k - n), k)
  | fuel + 1, k =>
    match shortestCandidate u n k with
    | some s => (s, k)
    | none => shortestDigitsAux u n fuel (k + 1)

/-- The digits `s` and the exponent `n` of Number::toString: the least number
`k` of significant digits, and `s` with `10^(k-1) ≤ s < 10^k`, such that
`s * 10^(n-k)` is read back as the value of `u` units. (Seventeen digits always
suffice.) -/
def shortestDigits (u : Nat) : JSString × Int :=
  let n := decimalExponent u
  let r := shortestDigitsAux u n 17 1
  if r.1 = 10 ^ r.2 then (natToDigits (10 ^ (r.2 - 1)), n + 1) else (natToDigits r.1, n)

/-- The JavaScript Number::toString (radix 10). -/
def numberToString : JSNumber → JSString
  | .nan => "NaN".toList
  | .inf neg => if neg then "-Infinity".toList else "Infinity".toList
  | .fin neg u =>
    if u = 0 then "0".toList
    else
      let sn := shortestDigits u
      let ds := sn.1
      let k := ds.length
      let n := sn.2
      let body : JSString :=
        if (k : Int) ≤ n ∧ n ≤ 21 then ds ++ List.replicate (n.toNat - k) '0'
        else if 0 < n ∧ n ≤ 21 then ds.take n.toNat ++ '.' :: ds.drop n.toNat
        else if -6 < n ∧ n ≤ 0 then '0' :: '.' :: (List.replicate (-n).toNat '0' ++ ds)
        else
          let e := n - 1
          let es := (if e < 0 then '-' else '+') :: natToDigits e.natAbs
          if k = 1 then ds ++ 'e' :: es else ds.take 1 ++ '.' :: (ds.drop 1 ++ 'e' :: es)
      if neg then '-' :: body else body

/-! ### String to number -/

/-- The white space and line terminator characters that `parseFloat` and the
string-to-number conversion skip. -/
def isWhiteSpace (c : Char) : Bool :=
  decide (c.toNat ∈ [9, 10, 11, 12, 13, 32, 160, 5760, 8232, 8233, 8239, 8287, 12288, 65279])
    || (decide (8192 ≤ c.toNat) && decide (c.toNat ≤ 8202))

/-- The exponent part at the head of `r` (`e` or `E`, an optional sign, at
least one digit): its value and what follows it; `(0, r)` when there is none. -/
def exponentPart (r : JSString) : Int × JSString :=
  match r with
  | [] => (0, r)
  | c :: t =>
    if c = 'e' ∨ c = 'E' then
      match t with
      | [] => (0, r)
      | d :: t2 =>
        if d = '-' then
          (if t2.takeWhile Char.isDigit = [] then (0, r)
           else (- (digitsValue (t2.takeWhile Char.isDigit) : Int), t2.dropWhile Char.isDigit))
        else if d = '+' then
          (if t2.takeWhile Char.isDigit = [] then (0, r)
           else ((digitsValue (t2.takeWhile Char.isDigit) : Int), t2.dropWhile Char.isDigit))
        else
          (if t.takeWhile Char.isDigit = [] then (0, r)
           else ((digitsValue (t.takeWhile Char.isDigit) : Int), t.dropWhile Char.isDigit))
    else (0, r)

/-- The digits of the fraction at the head of `r1`: the digits after a point. -/
def fractionDigits (r1 : JSString) : JSString :=
  match r1 with
  | [] => []
  | c :: t => if c = '.' then t.takeWhile Char.isDigit else []

/-- What follows the fraction at the head of `r1`. -/
def afterFraction (r1 : JSString) : JSString :=
  match r1 with
  | [] => []
  | c :: t => if c = '.' then t.dropWhile Char.isDigit else r1

/-- The longest prefix of `u` that is an unsigned decimal literal
(`Infinity`, `digits`, `digits.`, `digits.digits`, `.digits`, each of the last
four with an optional exponent part): its number value, with the sign `neg`,
and the rest of the string; `none` when no prefix is a literal. -/
def strUnsignedDecimalLiteral (neg : Bool) (u : JSString) : Option (JSNumber × JSString) :=
  if u.take 8 = "Infinity".toList then some (.inf neg, u.drop 8)
  else
    let d1 := u.takeWhile Char.isDigit
    let r1 := u.dropWhile Char.isDigit
    let d2 := fractionDigits r1
    let r2 := afterFraction r1
    if d1 = [] ∧ d2 = [] then none
    else
      let ex := exponentPart r2
      let f := decimalFraction (digitsValue (d1 ++ d2)) (ex.1 - d2.length)
      some (roundToDouble neg f.1 f.2, ex.2)

/-- The optional sign at the head of a numeric string. -/
def signPart (t : JSString) : Bool × JSString :=
  match t with
  | [] => (false, t)
  | c :: r => if c = '-' then (true, r) else if c = '+' then (false, r) else (false, t)

/-- The JavaScript global `parseFloat`: leading white space is skipped, the
longest prefix that is a decimal literal is converted, and `NaN` is returned
when there is none. -/
def parseFloat (s : JSString) : JSNumber :=
  let t := signPart (s.dropWhile isWhiteSpace)
  match strUnsignedDecimalLiteral t.1 t.2 with
  | some (x, _) => x
  | none => .nan

/-- The value of a string of digits in the radix `b` (2, 8 or 16), `none` when
a character is not a digit of that radix. -/
def radixValue (b : Nat) (ds : JSString) : Option Nat :=
  ds.foldl (fun acc c =>
    let v := if c.isDigit then c.toNat - 48
      else if 97 ≤ c.toNat ∧ c.toNat ≤ 102 then c.toNat - 87
      else if 65 ≤ c.toNat ∧ c.toNat ≤ 70 then c.toNat - 55 else 16
    match acc with
    | some a => if v < b then some (a * b + v) else none
    | none => none) (some 0)

/-- The JavaScript conversion of a string to a number (as the `*` operator
applies it): white space around is dropped, the empty string is `0`, the whole
rest must be one decimal literal with an optional sign, or a binary, octal or
hexadecimal integer literal; otherwise the result is `NaN`. -/
def stringToNumber (s : JSString) : JSNumber :=
  let t := ((s.dropWhile isWhiteSpace).reverse.dropWhile isWhiteSpace).reverse
  match t with
  | [] => .fin false 0
  | c :: r =>
    let radix : Nat := match r with
      | [] => 0
      | x :: _ =>
        if c = '0' ∧ (x = 'x' ∨ x = 'X') then 16
        else if c = '0' ∧ (x = 'o' ∨ x = 'O') then 8
        else if c = '0' ∧ (x = 'b' ∨ x = 'B') then 2 else 0
    if radix ≠ 0 then
      (if r.drop 1 = [] then .nan
       else match radixValue radix (r.drop 1) with
        | some v => roundToDouble false v 1
        | none => .nan)
    else
      match strUnsignedDecimalLiteral (signPart t).1 (signPart t).2 with
      | some (x, []) => x
      | _ => .nan

/-! ### Number.prototype.toFixed -/

/-- Three decimal digits of `r` (for `r < 1000`). -/
def pad3 (r : Nat) : JSString := [digitChar (r / 100), digitChar (r / 10 % 10), digitChar (r % 10)]

/-- The decimal notation of `n / 1000` with exactly three fractional digits. -/
def fixed3 (n : Nat) : JSString := natToDigits (n / 1000) ++ '.' :: pad3 (n % 1000)

/-- The JavaScript `x.toFixed(3)`: for a finite `x` below `10^21` in magnitude,
the integer `n` nearest to `x * 1000` (the larger one on a tie) written with
three fractional digits; otherwise the result of Number::toString. -/
def toFixed3 (x : JSNumber) : JSString :=
  match x with
  | .nan => numberToString x
  | .inf _ => numberToString x
  | .fin neg u =>
    if 10 ^ 21 * UNITS ≤ u then numberToString x
    else
      let n := (2000 * u + UNITS) / (2 * UNITS)
      if neg ∧ u ≠ 0 then '-' :: fixed3 n else fixed3 n

/-! ## The policy and the props of the view -/

/-- A rate of a custom unit (`policy.customUnits[..].rates[..]`): the fields of
the prop types, each possibly absent, and the other fields that the store keeps
on the entry (errors, pending action, ...). -/
structure CustomUnitRate where
  customUnitRateID : Option JSString
  name : Option JSString
  rate : Option JSNumber
  other : List (JSString × JSString)
  deriving DecidableEq

/-- A custom unit of the policy; `unit` is the path `attributes.unit`, and
`rates` the object of its rates, as the list of its keys and values. -/
structure CustomUnit where
  customUnitID : Option JSString
  name : Option JSString
  unit : Option JSString
  rates : Option (List (JSString × CustomUnitRate))
  deriving DecidableEq

/-- The policy prop. -/
structure Policy where
  id : JSString
  customUnits : Option (List (JSString × CustomUnit))
  outputCurrency : Option JSString
  deriving DecidableEq

/-- The props that the rate logic reads. `decimalSeparator` is
`this.props.toLocaleDigit('.')`, the decimal separator glyph of the locale (one
character); `permittedSeparators` is the set of characters that the class
`[${getPermittedDecimalSeparator(decimalSeparator)}]` of the validation
expression matches (`libs/getPermittedDecimalSeparator` is not part of the
sources at hand, so its result is a parameter). -/
structure Props where
  policy : Policy
  decimalSeparator : Char
  permittedSeparators : List Char
  deriving DecidableEq

/-- The state of the component. `unitRateID` can be `undefined` (`none`). -/
structure State where
  unitID : JSString
  unitName : JSString
  unitValue : JSString
  unitRateID : Option JSString
  unitRateValue : JSString
  outputCurrency : JSString
  deriving DecidableEq

/-- Modelled from the spec: `CONST.POLICY.CUSTOM_UNIT_RATE_BASE_OFFSET` (`CONST.js`
is not among the sources): the fixed-point base offset `B = 100`, the literal
that `componentDidUpdate` divides by. -/
def CUSTOM_UNIT_RATE_BASE_OFFSET : Nat := 100

/-- Modelled from the spec: `CONST.CUSTOM_UNITS.NAME_DISTANCE` (`CONST.js` is not
among the sources): the well-known name of the distance unit, the literal
`'Distance'` that the constructor compares with. -/
def NAME_DISTANCE : JSString := "Distance".toList

/-- The argument of `getNumericValue` and `getRateDisplayValue`: the constructor
passes a number, `setRate` and `updateRateValue` pass a string. -/
inductive RateInput
  | str (s : JSString)
  | num (x : JSNumber)
  deriving DecidableEq

/-- The `value.toString()` of `getNumericValue`. -/
def RateInput.toString : RateInput → JSString
  | .str s => s
  | .num x => numberToString x

/-! ## The conversions -/

/-- The method `getNumericValue`: the locale separator is replaced by a point,
the string is parsed with `parseFloat`, and the result is `NaN` (`none`) or the
string `numValue.toFixed(3)`. -/
def getNumericValue (sep : Char) (value : RateInput) : Option JSString :=
  let numValue := parseFloat (replaceFirst sep '.' value.toString)
  if numValue = .nan then none else some (toFixed3 numValue)

/-- The method `getRateDisplayValue`: the numeric value with the point replaced
by the locale separator, cut to `value.length` characters; `value.length` is
`undefined` for a number, and `substring(0, undefined)` is the whole string. -/
def getRateDisplayValue (sep : Char) (value : RateInput) : JSString :=
  match getNumericValue sep value with
  | none => []
  | some numValue =>
    match value with
    | .str s => (replaceFirst '.' sep numValue).take s.length
    | .num _ => replaceFirst '.' sep numValue

/-- The regular expression `^\d{1,8}([${permitted}]\d{0,3})?$` of `setRate`:
one to eight digits, then nothing, or one permitted separator and at most three
digits. -/
def rateValueRegex (permitted : List Char) (value : JSString) : Bool :=
  (List.range' 1 8).any fun i =>
    decide ((value.take i).length = i) && (value.take i).all Char.isDigit &&
      (match value.drop i with
       | [] => true
       | c :: r => decide (c ∈ permitted) && decide (r.length ≤ 3) && r.all Char.isDigit)

/-- The method `setRate`, as the state after `setState`: an input that is not
empty and fails the expression keeps the previous `unitRateValue`. -/
def setRate (props : Props) (value : JSString) (prevState : State) : State :=
  let isInvalidRateValue : Bool := value ≠ [] && !rateValueRegex props.permittedSeparators value
  { prevState with
    unitRateValue :=
      if !isInvalidRateValue then getRateDisplayValue props.decimalSeparator (.str value)
      else prevState.unitRateValue }

/-! ## The state computed from the policy -/

/-- The `_.find(lodashGet(props, 'policy.customUnits', {}), unit => unit.name === name)`
of the constructor and of `updateRateValue`; the
`_.chain(...).values().findWhere({name}).value()` of `componentDidUpdate` is the
same search: the first unit, in the order of the keys, whose name is `name`. -/
def findUnit (policy : Policy) (name : JSString) : Option CustomUnit :=
  ((policy.customUnits.getD []).map Prod.snd).find? fun unit => decide (unit.name = some name)

/-- The `_.find(lodashGet(distanceCustomUnit, 'rates', {}), rate => rate.name === 'Default Rate')`. -/
def findDefaultRate (distanceCustomUnit : Option CustomUnit) : Option CustomUnitRate :=
  (((distanceCustomUnit.bind CustomUnit.rates).getD []).map Prod.snd).find?
    fun rate => decide (rate.name = some "Default Rate".toList)

/-- The state the constructor sets. -/
def constructor (props : Props) : State :=
  let distanceCustomUnit := findUnit props.policy "Distance".toList
  let customUnitRate := findDefaultRate distanceCustomUnit
  { unitID := (distanceCustomUnit.bind CustomUnit.customUnitID).getD []
    unitName := (distanceCustomUnit.bind CustomUnit.name).getD []
    unitValue := (distanceCustomUnit.bind CustomUnit.unit).getD "mi".toList
    unitRateID := some ((customUnitRate.bind CustomUnitRate.customUnitRateID).getD [])
    unitRateValue := getRateDisplayValue props.decimalSeparator
      (.num (((customUnitRate.bind CustomUnitRate.rate).getD (JSNumber.ofNat 0)).divNat
        CUSTOM_UNIT_RATE_BASE_OFFSET))
    outputCurrency := props.policy.outputCurrency.getD [] }

/-- The state part of the method `componentDidUpdate`: when the reference
`policy.customUnits` has changed (`customUnitsChanged`), the five unit fields
are set again from the new props; `outputCurrency` is not touched. -/
def componentDidUpdate (customUnitsChanged : Bool) (props : Props) (state : State) : State :=
  if customUnitsChanged then
    let distanceCustomUnit := findUnit props.policy NAME_DISTANCE
    let customUnitRate := findDefaultRate distanceCustomUnit
    { state with
      unitID := (distanceCustomUnit.bind CustomUnit.customUnitID).getD []
      unitName := (distanceCustomUnit.bind CustomUnit.name).getD []
      unitValue := (distanceCustomUnit.bind CustomUnit.unit).getD "mi".toList
      unitRateID := customUnitRate.bind CustomUnitRate.customUnitRateID
      unitRateValue := getRateDisplayValue props.decimalSeparator
        (.num (((customUnitRate.bind CustomUnitRate.rate).getD (JSNumber.ofNat 0)).divNat 100)) }
  else state

/-! ## The commit -/

/-- The call `Policy.updateCustomUnitRate(policyID, currentCustomUnitRate,
customUnitID, values)`. -/
structure UpdateRequest where
  policyID : JSString
  currentCustomUnitRate : CustomUnitRate
  customUnitID : JSString
  values : CustomUnitRate
  deriving DecidableEq

/-- The empty object `{}` as a rate entry. -/
def emptyRate : CustomUnitRate := { customUnitRateID := none, name := none, rate := none, other := [] }

/-- The `lodashGet(distanceCustomUnit, ['rates', unitRateID], {})`; the key of
an `undefined` identifier is the string `undefined`. -/
def currentRate (distanceCustomUnit : Option CustomUnit) (unitRateID : Option JSString) :
    CustomUnitRate :=
  ((((distanceCustomUnit.bind CustomUnit.rates).getD []).find?
    fun kv => decide (kv.1 = unitRateID.getD "undefined".toList)).map Prod.snd).getD emptyRate

/-- The method `updateRateValue`: no request (`none`) when the value does not
parse; otherwise the request that merges `rate: numValue * 100` over the
current rate entry. -/
def updateRateValue (props : Props) (state : State) (value : JSString) : Option UpdateRequest :=
  match getNumericValue props.decimalSeparator (.str value) with
  | none => none
  | some numValue =>
    let distanceCustomUnit := findUnit props.policy "Distance".toList
    let currentCustomUnitRate := currentRate distanceCustomUnit state.unitRateID
    some
      { policyID := props.policy.id
        currentCustomUnitRate := currentCustomUnitRate
        customUnitID := state.unitID
        values := { currentCustomUnitRate with
          rate := some ((stringToNumber numValue).mulNat CUSTOM_UNIT_RATE_BASE_OFFSET) } }

/-! ## The debounced commit and the step model -/

/-- The component: its state and the timer of `updateRateValueDebounced`, which
holds the argument of the last call and the milliseconds left, when armed. -/
structure Component where
  state : State
  timer : Option (JSString × Nat)
  deriving DecidableEq

/-- Modelled from the spec: `_.debounce(func, 1000)` of underscore, which is
library code outside the sources: a call of the debounced function runs nothing;
it (re)arms the timer with the argument of this call and a full wait of 1000 ms
(trailing edge only, reset and not stacked on every call). -/
def callDebounced (c : Component) (value : JSString) : Component :=
  { c with timer := some (value, 1000) }

/-- An invocation of `updateRateValue`: its argument and the request it made,
if any. -/
structure Commit where
  value : JSString
  request : Option UpdateRequest
  deriving DecidableEq

/-- The events of the step model. -/
inductive Event
  | edit (input : JSString)
  | keyPress (key : JSString)
  | elapse (ms : Nat)
  deriving DecidableEq

/-- The method `debounceUpdateOnCursorMove`: for the two arrow keys the
debounced commit is called with the current `unitRateValue`. -/
def debounceUpdateOnCursorMove (c : Component) (key : JSString) : Component :=
  if key ∉ ["ArrowLeft".toList, "ArrowRight".toList] then c
  else callDebounced c c.state.unitRateValue

/-- Modelled from the spec: the timer of `_.debounce` when `ms` milliseconds pass
without a call: an armed timer that has at most `ms` left fires, which invokes
`updateRateValue` with the stored argument and disarms it; otherwise its
remaining time decreases. -/
def elapse (props : Props) (c : Component) (ms : Nat) : Component × List Commit :=
  match c.timer with
  | none => (c, [])
  | some (value, left) =>
    if left ≤ ms then
      ({ c with timer := none }, [{ value := value, request := updateRateValue props c.state value }])
    else ({ c with timer := some (value, left - ms) }, [])

/-- One step of the component: an edit runs `setRate` and then, in the callback
of `setState`, calls the debounced commit with the new `unitRateValue`; a key
event runs `debounceUpdateOnCursorMove`; time passing runs the timer. -/
def step (props : Props) (c : Component) : Event → Component × List Commit
  | .edit input =>
    let c1 : Component := { c with state := setRate props input c.state }
    (callDebounced c1 c1.state.unitRateValue, [])
  | .keyPress key => (debounceUpdateOnCursorMove c key, [])
  | .elapse ms => elapse props c ms

/-- The run of a list of events, with the commits made, in order. -/
def run (props : Props) (c : Component) : List Event → Component × List Commit
  | [] => (c, [])
  | e :: es =>
    let r := step props c e
    let r2 := run props r.1 es
    (r2.1, r.2 ++ r2.2)

/-! ## Definitions for the statements -/

/-- The strings that `rateValueRegex` accepts, spelled out. -/
def RateGrammar (permitted : List Char) (v : JSString) : Prop :=
  ∃ d1 : JSString, d1 ≠ [] ∧ d1.length ≤ 8 ∧ (∀ c ∈ d1, c.isDigit = true) ∧
    (v = d1 ∨ ∃ c d2, v = d1 ++ c :: d2 ∧ c ∈ permitted ∧ d2.length ≤ 3 ∧
      ∀ x ∈ d2, x.isDigit = true)

/-- The characters that can stand for a decimal separator: not a digit and not
the exponent marker of a decimal literal. -/
def separatorGlyph (c : Char) : Bool := !c.isDigit && c != 'e' && c != 'E'

/-- The typed decimal in thousandths, as `getNumericValue` reads the string:
the digits before the first other character, and the digits after it when that
character is the locale separator or a point. -/
def millis (sep : Char) (v : JSString) : Nat :=
  match v.dropWhile Char.isDigit with
  | [] => digitsValue (v.takeWhile Char.isDigit) * 1000
  | c :: d2 =>
    if c = sep ∨ c = '.' then
      digitsValue (v.takeWhile Char.isDigit ++ d2) * 10 ^ (3 - d2.length)
    else digitsValue (v.takeWhile Char.isDigit) * 1000

/-- A policy whose distance unit has the default rate `rate` (a stored
fixed-point integer), with other fields on the rate entry. -/
def examplePolicy (rate : Nat) : Policy :=
  { id := "policy1".toList
    customUnits := some [("unit1".toList,
      { customUnitID := some "unit1".toList
        name := some "Distance".toList
        unit := some "km".toList
        rates := some [("rate1".toList,
          { customUnitRateID := some "rate1".toList
            name := some "Default Rate".toList
            rate := some (JSNumber.ofNat rate)
            other := [("pendingAction".toList, "update".toList)] })] })]
    outputCurrency := some "USD".toList }

/-- Props with the separator `sep` of the locale, a point and a comma being
permitted, and the policy `examplePolicy rate`. -/
def exampleProps (sep : Char) (rate : Nat) : Props :=
  { policy := examplePolicy rate, decimalSeparator := sep, permittedSeparators := ['.', ','] }

/-- Props whose policy has no custom units. -/
def emptyProps : Props :=
  { policy := { id := "policy1".toList, customUnits := none, outputCurrency := none }
    decimalSeparator := '.', permittedSeparators := ['.', ','] }

/-- Whether a number is finite, not negative, and within `1 / tol` of the
rational `num / den`. -/
def JSNumber.near (x : JSNumber) (num den tol : Nat) : Bool :=
  match x with
  | .fin false u =>
    decide (tol * (den * u) ≤ tol * (num * UNITS) + den * UNITS) &&
      decide (tol * (num * UNITS) ≤ tol * (den * u) + den * UNITS)
  | _ => false

/-- Whether a number is an integer. -/
def JSNumber.isInteger : JSNumber → Bool
  | .fin _ u => u % UNITS = 0
  | _ => false

/-- The events of a burst of edits: each input of `edits` followed by the time
that passes before the next edit. -/
def editEvents : List (JSString × Nat) → List Event
  | [] => []
  | p :: ps => Event.edit p.1 :: Event.elapse p.2 :: editEvents ps

/-- The state after the inputs of a burst of edits, in order. -/
def editState (props : Props) (s : State) : List (JSString × Nat) → State
  | [] => s
  | p :: ps => editState props (setRate props p.1 s) ps

/-! ## Rounding lemmas -/

theorem log2Aux_spec : ∀ (fuel n : Nat), n ≤ fuel → n ≠ 0 →
    2 ^ log2Aux fuel n ≤ n ∧ n < 2 ^ (log2Aux fuel n + 1) := by
  intro fuel
  induction fuel with
  | zero => intro n h0 h1; omega
  | succ f ih =>
    intro n hn h0
    unfold log2Aux
    by_cases h2 : 2 ≤ n
    · rw [if_pos h2]
      have hd : n / 2 ≤ f := by omega
      have hd0 : n / 2 ≠ 0 := by omega
      obtain ⟨l, u⟩ := ih (n / 2) hd hd0
      rw [pow_succ, pow_succ] at *
      constructor <;> omega
    · rw [if_neg h2]
      have : n = 1 := by omega
      subst this
      simp

theorem log2_lt_of_lt (n k : Nat) (hk : 0 < k) (h : n < 2 ^ k) : log2 n < k := by
  by_cases h0 : n = 0
  · subst h0
    simpa [log2, log2Aux] using hk
  · have hs := (log2Aux_spec n n (le_refl n) h0).1
    have hlt : 2 ^ log2Aux n n < 2 ^ k := lt_of_le_of_lt hs h
    exact (Nat.pow_lt_pow_iff_right (by norm_num)).mp hlt

theorem roundHalfEven_spec (a b : Nat) (hb : 0 < b) :
    2 * (roundHalfEven a b * b) ≤ 2 * a + b ∧ 2 * a ≤ 2 * (roundHalfEven a b * b) + b := by
  have hdm : b * (a / b) + a % b = a := Nat.div_add_mod a b
  have hr : a % b < b := Nat.mod_lt a hb
  have hq : (a / b + 1) * b = b * (a / b) + b := by ring
  have hq0 : a / b * b = b * (a / b) := by ring
  unfold roundHalfEven
  simp only
  split_ifs <;> (first | rw [hq] | rw [hq0]) <;> constructor <;> omega

/-- The value `toFixed(3)` prints for the binary64 nearest to `n0 / 1000`, when
`n0` has at most eleven digits, is `n0 / 1000` itself. -/
theorem toFixed3_roundToDouble (num den n0 : Nat) (hden : 0 < den)
    (hq : num * 1000 = n0 * den) (hn : n0 < 10 ^ 11) :
    toFixed3 (roundToDouble false num den) = fixed3 n0 := by
  have hU : 0 < UNITS := by unfold UNITS; positivity
  -- the quotient in units is below 2^1111
  have hF : num * UNITS / den < 2 ^ 1111 := by
    have h1 : num ≤ n0 * den := by omega
    have h2 : num * UNITS / den ≤ n0 * UNITS := by
      apply Nat.div_le_of_le_mul
      calc num * UNITS ≤ (n0 * den) * UNITS := Nat.mul_le_mul_right _ h1
        _ = den * (n0 * UNITS) := by ring
    have h3 : n0 * UNITS < 2 ^ 37 * 2 ^ 1074 := by
      unfold UNITS
      apply Nat.mul_lt_mul_of_lt_of_le _ (le_refl _) (by positivity)
      calc n0 < 10 ^ 11 := hn
        _ < 2 ^ 37 := by norm_num
    rw [← pow_add] at h3
    omega
  have hsh : log2 (num * UNITS / den) - 52 ≤ 1058 := by
    have := log2_lt_of_lt _ 1111 (by norm_num) hF
    omega
  generalize hshd : log2 (num * UNITS / den) - 52 = sh at hsh
  have hpow : 1000 * 2 ^ sh < UNITS := by
    unfold UNITS
    calc 1000 * 2 ^ sh ≤ 1000 * 2 ^ 1058 := Nat.mul_le_mul_left _ (Nat.pow_le_pow_right (by norm_num) hsh)
      _ < 2 ^ 16 * 2 ^ 1058 :=
          Nat.mul_lt_mul_of_lt_of_le (show 1000 < 2 ^ 16 by norm_num) (le_refl _) (Nat.two_pow_pos 1058)
      _ = 2 ^ 1074 := by rw [← pow_add]
  have hb : 0 < den * 2 ^ sh := by positivity
  obtain ⟨e1, e2⟩ := roundHalfEven_spec (num * UNITS) (den * 2 ^ sh) hb
  generalize hr : roundHalfEven (num * UNITS) (den * 2 ^ sh) = r at e1 e2
  -- m = r * 2 ^ sh
  have hm1 : 2000 * (num * UNITS) ≤ (2000 * (r * 2 ^ sh) + UNITS) * den := by
    have : 1000 * 2 ^ sh * den ≤ UNITS * den := Nat.mul_le_mul_right _ (le_of_lt hpow)
    nlinarith
  have hm2 : (2000 * (r * 2 ^ sh) + UNITS) * den < 2000 * (num * UNITS) + 2 * UNITS * den := by
    have : 1000 * 2 ^ sh * den < UNITS * den := Nat.mul_lt_mul_of_pos_right hpow hden
    nlinarith
  have hkey : 2000 * (num * UNITS) = n0 * (2 * UNITS) * den := by
    calc 2000 * (num * UNITS) = 2 * UNITS * (num * 1000) := by ring
      _ = 2 * UNITS * (n0 * den) := by rw [hq]
      _ = n0 * (2 * UNITS) * den := by ring
  have hlow : n0 * (2 * UNITS) ≤ 2000 * (r * 2 ^ sh) + UNITS := by
    apply Nat.le_of_mul_le_mul_right _ hden
    rw [← hkey]; exact hm1
  have hup : 2000 * (r * 2 ^ sh) + UNITS < (n0 + 1) * (2 * UNITS) := by
    apply Nat.lt_of_mul_lt_mul_right (a := den)
    calc (2000 * (r * 2 ^ sh) + UNITS) * den < 2000 * (num * UNITS) + 2 * UNITS * den := hm2
      _ = (n0 + 1) * (2 * UNITS) * den := by rw [hkey]; ring
  have hdiv : (2000 * (r * 2 ^ sh) + UNITS) / (2 * UNITS) = n0 := by
    apply Nat.div_eq_of_lt_le
    · exact hlow
    · exact hup
  have hmlt : r * 2 ^ sh < 10 ^ 11 * UNITS := by nlinarith
  have hov : ¬ (2 ^ 2098 ≤ r * 2 ^ sh) := by
    have : 10 ^ 11 * UNITS < 2 ^ 2098 := by
      unfold UNITS
      calc 10 ^ 11 * 2 ^ 1074 < 2 ^ 37 * 2 ^ 1074 :=
            Nat.mul_lt_mul_of_lt_of_le (by norm_num) (le_refl _) (by positivity)
        _ = 2 ^ 1111 := by rw [← pow_add]
        _ ≤ 2 ^ 2098 := Nat.pow_le_pow_right (by norm_num) (by norm_num)
    omega
  have hbig : ¬ (10 ^ 21 * UNITS ≤ r * 2 ^ sh) := by
    have : 10 ^ 11 * UNITS ≤ 10 ^ 21 * UNITS := Nat.mul_le_mul_right _ (by norm_num)
    omega
  unfold roundToDouble
  simp only [hshd, hr, if_neg hov]
  unfold toFixed3
  simp only [if_neg hbig, hdiv]
  simp

/-! ## Digits -/

theorem isDigit_iff (c : Char) : c.isDigit = true ↔ 48 ≤ c.toNat ∧ c.toNat ≤ 57 := by
  unfold Char.isDigit
  simp only [Bool.and_eq_true, decide_eq_true_eq, ge_iff_le]
  constructor
  · rintro ⟨h1, h2⟩
    exact ⟨h1, h2⟩
  · rintro ⟨h1, h2⟩
    exact ⟨h1, h2⟩

theorem digitChar_digitVal (c : Char) (h : c.isDigit = true) : digitChar (digitVal c) = c := by
  obtain ⟨h1, h2⟩ := (isDigit_iff c).mp h
  unfold digitChar digitVal
  rw [Nat.sub_add_cancel h1]
  exact Char.ofNat_toNat c

theorem digitVal_lt (c : Char) (h : c.isDigit = true) : digitVal c < 10 := by
  obtain ⟨h1, h2⟩ := (isDigit_iff c).mp h
  unfold digitVal
  omega

theorem digitChar_isDigit (n : Nat) (h : n < 10) : (digitChar n).isDigit = true := by
  interval_cases n <;> decide

theorem digitVal_digitChar (n : Nat) (h : n < 10) : digitVal (digitChar n) = n := by
  interval_cases n <;> decide

theorem isDigit_ne (c d : Char) (h : c.isDigit = true) (hd : d.isDigit = false) : c ≠ d := by
  intro e
  subst e
  rw [h] at hd
  exact Bool.noConfusion hd

theorem digitsValue_append (a b : JSString) :
    digitsValue (a ++ b) = digitsValue a * 10 ^ b.length + digitsValue b := by
  induction b using List.reverseRecOn with
  | nil => simp [digitsValue]
  | append_singleton b c ih =>
    have h1 : digitsValue (a ++ (b ++ [c])) = 10 * digitsValue (a ++ b) + digitVal c := by
      simp [digitsValue, List.foldl_append]
    have h2 : digitsValue (b ++ [c]) = 10 * digitsValue b + digitVal c := by
      simp [digitsValue, List.foldl_append]
    rw [h1, h2, ih]
    simp only [List.length_append, List.length_singleton, pow_succ]
    ring

theorem digitsValue_singleton (c : Char) : digitsValue [c] = digitVal c := by
  simp [digitsValue]

theorem digitsValue_nil : digitsValue [] = 0 := rfl

theorem digitsValue_lt (ds : JSString) (h : ∀ c ∈ ds, c.isDigit = true) :
    digitsValue ds < 10 ^ ds.length := by
  induction ds using List.reverseRecOn with
  | nil => simp [digitsValue]
  | append_singleton b c ih =>
    have hb : ∀ x ∈ b, x.isDigit = true := fun x hx => h x (by simp [hx])
    have hc : digitVal c < 10 := digitVal_lt c (h c (by simp))
    have := ih hb
    rw [digitsValue_append, digitsValue_singleton]
    simp only [List.length_append, List.length_singleton, pow_succ, pow_zero, mul_one]
    nlinarith

theorem natToDigitsAux_fuel : ∀ (f1 f2 n : Nat) (acc : JSString), n < f1 → n < f2 →
    natToDigitsAux f1 n acc = natToDigitsAux f2 n acc := by
  intro f1
  induction f1 with
  | zero => intro f2 n acc h; omega
  | succ f1 ih =>
    intro f2 n acc h1 h2
    cases f2 with
    | zero => omega
    | succ f2 =>
      unfold natToDigitsAux
      by_cases h : n < 10
      · simp [h]
      · simp only [h, if_false]
        exact ih f2 (n / 10) _ (by omega) (by omega)

theorem natToDigitsAux_acc : ∀ (f n : Nat) (acc : JSString), n < f →
    natToDigitsAux f n acc = natToDigitsAux f n [] ++ acc := by
  intro f
  induction f with
  | zero => intro n acc h; omega
  | succ f ih =>
    intro n acc h1
    unfold natToDigitsAux
    by_cases h : n < 10
    · simp [h]
    · simp only [h, if_false]
      rw [ih (n / 10) (digitChar (n % 10) :: acc) (by omega),
        ih (n / 10) [digitChar (n % 10)] (by omega)]
      simp

theorem natToDigits_lt (n : Nat) (h : n < 10) : natToDigits n = [digitChar n] := by
  unfold natToDigits natToDigitsAux
  simp [h]

theorem natToDigits_ge (n : Nat) (h : 10 ≤ n) :
    natToDigits n = natToDigits (n / 10) ++ [digitChar (n % 10)] := by
  have h' : ¬ n < 10 := by omega
  unfold natToDigits
  rw [natToDigitsAux]
  simp only [h', if_false]
  rw [natToDigitsAux_acc n (n / 10) _ (by omega)]
  rw [natToDigitsAux_fuel n (n / 10 + 1) (n / 10) [] (by omega) (by omega)]

theorem natToDigits_spec : ∀ (k n : Nat), n < 10 ^ (k + 1) →
    (∀ c ∈ natToDigits n, c.isDigit = true) ∧ (natToDigits n).length ≤ k + 1 ∧
      natToDigits n ≠ [] ∧ digitsValue (natToDigits n) = n := by
  intro k
  induction k with
  | zero =>
    intro n h
    have h10 : n < 10 := by simpa using h
    rw [natToDigits_lt n h10]
    refine ⟨?_, by simp, by simp, ?_⟩
    · intro c hc
      simp only [List.mem_singleton] at hc
      rw [hc]; exact digitChar_isDigit n h10
    · rw [digitsValue_singleton, digitVal_digitChar n h10]
  | succ k ih =>
    intro n h
    by_cases h10 : n < 10
    · rw [natToDigits_lt n h10]
      refine ⟨?_, by simp, by simp, ?_⟩
      · intro c hc
        simp only [List.mem_singleton] at hc
        rw [hc]; exact digitChar_isDigit n h10
      · rw [digitsValue_singleton, digitVal_digitChar n h10]
    · have hge : 10 ≤ n := by omega
      have hdiv : n / 10 < 10 ^ (k + 1) := by
        rw [pow_succ] at h
        omega
      obtain ⟨a1, a2, a3, a4⟩ := ih (n / 10) hdiv
      have hm : n % 10 < 10 := Nat.mod_lt _ (by norm_num)
      rw [natToDigits_ge n hge]
      refine ⟨?_, ?_, by simp, ?_⟩
      · intro c hc
        rcases List.mem_append.mp hc with hc | hc
        · exact a1 c hc
        · simp only [List.mem_singleton] at hc
          rw [hc]; exact digitChar_isDigit _ hm
      · simp only [List.length_append, List.length_singleton]
        omega
      · rw [digitsValue_append, a4, digitsValue_singleton, digitVal_digitChar _ hm]
        simp only [List.length_singleton, pow_one]
        omega

/-- A string of digits without a superfluous leading zero is the decimal
representation of its value. -/
theorem natToDigits_digitsValue (ds : JSString) (hne : ds ≠ [])
    (hd : ∀ c ∈ ds, c.isDigit = true) (h0 : ds.head? = some '0' → ds = ['0']) :
    natToDigits (digitsValue ds) = ds := by
  by_cases hz : ds.head? = some '0'
  · rw [h0 hz]
    decide
  · -- the head is a digit other than zero
    have key : ∀ (l : JSString), l ≠ [] → (∀ c ∈ l, c.isDigit = true) → l.head? ≠ some '0' →
        natToDigits (digitsValue l) = l ∧ 1 ≤ digitsValue l := by
      intro l
      induction l using List.reverseRecOn with
      | nil => intro h; exact absurd rfl h
      | append_singleton b c ih =>
        intro _ hdl hhead
        have hc : c.isDigit = true := hdl c (by simp)
        have hcv : digitVal c < 10 := digitVal_lt c hc
        by_cases hb : b = []
        · subst hb
          simp only [List.nil_append] at hhead ⊢
          rw [digitsValue_singleton, natToDigits_lt _ hcv, digitChar_digitVal c hc]
          refine ⟨rfl, ?_⟩
          by_contra hlt
          have hv0 : digitVal c = 0 := by omega
          have : c = '0' := by
            rw [← digitChar_digitVal c hc, hv0]; rfl
          exact hhead (by simp [this])
        · have hbd : ∀ x ∈ b, x.isDigit = true := fun x hx => hdl x (by simp [hx])
          have hbh : b.head? ≠ some '0' := by
            cases b with
            | nil => exact absurd rfl hb
            | cons x t => simpa using hhead
          obtain ⟨i1, i2⟩ := ih hb hbd hbh
          rw [digitsValue_append, digitsValue_singleton]
          simp only [List.length_singleton, pow_one]
          have hge : 10 ≤ digitsValue b * 10 + digitVal c := by omega
          rw [natToDigits_ge _ hge]
          have e1 : (digitsValue b * 10 + digitVal c) / 10 = digitsValue b := by omega
          have e2 : (digitsValue b * 10 + digitVal c) % 10 = digitVal c := by omega
          rw [e1, e2, i1, digitChar_digitVal c hc]
          exact ⟨rfl, by omega⟩
    exact (key ds hne hd hz).1

/-! ## Strings of digits inside a longer string -/

theorem takeWhile_digits (ds rest : JSString) (hd : ∀ c ∈ ds, c.isDigit = true)
    (hr : ∀ c t, rest = c :: t → c.isDigit = false) :
    (ds ++ rest).takeWhile Char.isDigit = ds ∧ (ds ++ rest).dropWhile Char.isDigit = rest := by
  induction ds with
  | nil =>
    cases rest with
    | nil => simp
    | cons c t => simp [List.takeWhile_cons, List.dropWhile_cons, hr c t rfl]
  | cons x xs ih =>
    have hx : x.isDigit = true := hd x (by simp)
    have := ih (fun c hc => hd c (by simp [hc]))
    simp [List.takeWhile_cons, List.dropWhile_cons, hx, this]

theorem takeWhile_all_digits (ds : JSString) (hd : ∀ c ∈ ds, c.isDigit = true) :
    ds.takeWhile Char.isDigit = ds ∧ ds.dropWhile Char.isDigit = [] := by
  have := takeWhile_digits ds [] hd (by intro c t h; cases h)
  simpa using this

theorem replaceFirst_not_mem (a b : Char) (l : JSString) (h : a ∉ l) : replaceFirst a b l = l := by
  induction l with
  | nil => rfl
  | cons x xs ih =>
    have hx : x ≠ a := fun e => h (by simp [e])
    have hxs : a ∉ xs := fun e => h (by simp [e])
    simp [replaceFirst, hx, ih hxs]

theorem replaceFirst_append (a b : Char) (l r : JSString) (h : a ∉ l) :
    replaceFirst a b (l ++ a :: r) = l ++ b :: r := by
  induction l with
  | nil => simp [replaceFirst]
  | cons x xs ih =>
    have hx : x ≠ a := fun e => h (by simp [e])
    have hxs : a ∉ xs := fun e => h (by simp [e])
    simp [replaceFirst, hx, ih hxs]

theorem not_mem_digits (a : Char) (ds : JSString) (ha : a.isDigit = false)
    (hd : ∀ c ∈ ds, c.isDigit = true) : a ∉ ds := by
  intro h
  have := hd a h
  rw [ha] at this
  exact Bool.noConfusion this

theorem rateValueRegex_iff (permitted : List Char) (v : JSString) :
    rateValueRegex permitted v = true ↔ RateGrammar permitted v := by
  unfold rateValueRegex RateGrammar
  rw [List.any_eq_true]
  constructor
  · rintro ⟨i, hi, h⟩
    rw [List.mem_range'_1] at hi
    simp only [Bool.and_eq_true, decide_eq_true_eq, List.all_eq_true] at h
    obtain ⟨⟨hlen, hdig⟩, hrest⟩ := h
    refine ⟨v.take i, ?_, by omega, hdig, ?_⟩
    · intro e
      rw [e] at hlen
      simp at hlen
      omega
    · cases hdrop : v.drop i with
      | nil =>
        left
        have := List.take_append_drop i v
        rw [hdrop] at this
        simpa using this.symm
      | cons c r =>
        right
        rw [hdrop] at hrest
        simp only [Bool.and_eq_true, decide_eq_true_eq, List.all_eq_true] at hrest
        refine ⟨c, r, ?_, hrest.1.1, hrest.1.2, hrest.2⟩
        rw [← hdrop]
        exact (List.take_append_drop i v).symm
  · rintro ⟨d1, hne, hlen, hdig, hv⟩
    have hpos : 0 < d1.length := List.length_pos.mpr hne
    refine ⟨d1.length, ?_, ?_⟩
    · rw [List.mem_range'_1]; omega
    · rcases hv with hv | ⟨c, d2, hv, hc, hl2, hd2⟩
      · subst hv
        simp only [List.take_length, List.drop_length, Bool.and_eq_true, decide_eq_true_eq,
          List.all_eq_true, and_true, true_and]
        exact hdig
      · subst hv
        simp only [List.take_left', List.drop_left', Bool.and_eq_true, decide_eq_true_eq,
          List.all_eq_true, true_and]
        exact ⟨hdig, ⟨hc, hl2⟩, hd2⟩

/-! ## Parsing an accepted string -/

theorem isWhiteSpace_digit (c : Char) (h : c.isDigit = true) : isWhiteSpace c = false := by
  obtain ⟨h1, h2⟩ := (isDigit_iff c).mp h
  unfold isWhiteSpace
  simp only [List.mem_cons, List.mem_singleton, Bool.or_eq_false_iff, decide_eq_false_iff_not,
    Bool.and_eq_false_iff, List.not_mem_nil, or_false]
  refine ⟨by omega, Or.inl (by omega)⟩

theorem roundToDouble_ne_nan (neg : Bool) (num den : Nat) : roundToDouble neg num den ≠ .nan := by
  unfold roundToDouble
  simp only
  split_ifs <;> simp

theorem decimalFraction_neg (s j : Nat) :
    (decimalFraction s (0 - (j : Int))).1 * 10 ^ j = s * (decimalFraction s (0 - (j : Int))).2 ∧
      0 < (decimalFraction s (0 - (j : Int))).2 := by
  unfold decimalFraction
  by_cases hj : j = 0
  · subst hj
    simp
  · have h1 : ¬ (0 : Int) ≤ 0 - (j : Int) := by omega
    have h2 : (-(0 - (j : Int))).toNat = j := by omega
    simp only [h1, if_false, h2]
    exact ⟨trivial, by positivity⟩

/-- The decimal literal at the head of a string that starts with a digit. -/
theorem parseFloat_digit_head (x : Char) (r : JSString) (hx : x.isDigit = true) :
    parseFloat (x :: r) =
      ((strUnsignedDecimalLiteral false (x :: r)).map Prod.fst).getD .nan := by
  have hw : isWhiteSpace x = false := isWhiteSpace_digit x hx
  have hm : x ≠ '-' := isDigit_ne x '-' hx (by decide)
  have hp : x ≠ '+' := isDigit_ne x '+' hx (by decide)
  unfold parseFloat
  simp only [List.dropWhile_cons, hw, signPart, hm, hp, if_false, Bool.false_eq_true]
  cases strUnsignedDecimalLiteral false (x :: r) with
  | none => rfl
  | some p => rfl

theorem parseFloat_of_literal (x : Char) (r : JSString) (y : JSNumber) (t : JSString)
    (hx : x.isDigit = true) (h : strUnsignedDecimalLiteral false (x :: r) = some (y, t)) :
    parseFloat (x :: r) = y := by
  rw [parseFloat_digit_head x r hx, h]
  rfl

theorem strUnsigned_digits (neg : Bool) (d1 rest : JSString) (hne : d1 ≠ [])
    (hd : ∀ c ∈ d1, c.isDigit = true) (hr : ∀ c t, rest = c :: t → c.isDigit = false) :
    strUnsignedDecimalLiteral neg (d1 ++ rest) =
      some (roundToDouble neg
        (decimalFraction (digitsValue (d1 ++ fractionDigits rest))
          ((exponentPart (afterFraction rest)).1 - (fractionDigits rest).length)).1
        (decimalFraction (digitsValue (d1 ++ fractionDigits rest))
          ((exponentPart (afterFraction rest)).1 - (fractionDigits rest).length)).2,
        (exponentPart (afterFraction rest)).2) := by
  obtain ⟨t1, t2⟩ := takeWhile_digits d1 rest hd hr
  cases d1 with
  | nil => exact absurd rfl hne
  | cons x xs =>
    have hx : x.isDigit = true := hd x (by simp)
    have hI : x ≠ 'I' := isDigit_ne x 'I' hx (by decide)
    have hinf : ¬ ((x :: xs ++ rest).take 8 = "Infinity".toList) := by
      intro h
      have h2 : "Infinity".toList = ['I', 'n', 'f', 'i', 'n', 'i', 't', 'y'] := by decide
      rw [h2] at h
      simp only [List.cons_append, List.take_succ_cons, List.cons.injEq] at h
      exact hI h.1
    unfold strUnsignedDecimalLiteral
    rw [if_neg hinf]
    simp only [t1, t2]
    simp

theorem getNumericValue_str (sep : Char) (v : JSString) (x : JSNumber)
    (h : parseFloat (replaceFirst sep '.' v) = x) (hx : x ≠ .nan) :
    getNumericValue sep (.str v) = some (toFixed3 x) := by
  unfold getNumericValue
  simp only [RateInput.toString]
  rw [h, if_neg hx]

/-- What `getNumericValue` returns for a string that `rateValueRegex` accepts:
the typed value with exactly three decimals. -/
theorem getNumericValue_of_grammar (sep : Char) (permitted : List Char) (v : JSString)
    (hsep : sep.isDigit = false) (hP : ∀ c ∈ permitted, separatorGlyph c = true)
    (hv : rateValueRegex permitted v = true) :
    getNumericValue sep (.str v) = some (fixed3 (millis sep v)) ∧ millis sep v < 10 ^ 11 := by
  obtain ⟨d1, hne, hlen, hdig, hcase⟩ := (rateValueRegex_iff permitted v).mp hv
  have hv1 : digitsValue d1 < 10 ^ 8 :=
    lt_of_lt_of_le (digitsValue_lt d1 hdig) (Nat.pow_le_pow_right (by norm_num) hlen)
  have hsd1 : sep ∉ d1 := not_mem_digits sep d1 hsep hdig
  obtain ⟨x, xs, hd1⟩ : ∃ x xs, d1 = x :: xs := by
    cases d1 with
    | nil => exact absurd rfl hne
    | cons x xs => exact ⟨x, xs, rfl⟩
  have hx : x.isDigit = true := hdig x (by simp [hd1])
  -- the result, from the number that is parsed
  have fin : ∀ (s : JSString) (num den n0 : Nat), replaceFirst sep '.' v = x :: s →
      strUnsignedDecimalLiteral false (x :: s) = some (roundToDouble false num den, []) ∨
        (∃ t, strUnsignedDecimalLiteral false (x :: s) = some (roundToDouble false num den, t)) →
      0 < den → num * 1000 = n0 * den → n0 < 10 ^ 11 → millis sep v = n0 →
      getNumericValue sep (.str v) = some (fixed3 (millis sep v)) ∧ millis sep v < 10 ^ 11 := by
    intro s num den n0 hrep hlit hden hq hn hmil
    have hlit' : ∃ t, strUnsignedDecimalLiteral false (x :: s) =
        some (roundToDouble false num den, t) := by
      rcases hlit with h | h
      · exact ⟨[], h⟩
      · exact h
    obtain ⟨t, hlit'⟩ := hlit'
    have hparse : parseFloat (replaceFirst sep '.' v) = roundToDouble false num den := by
      rw [hrep]
      exact parseFloat_of_literal x s _ t hx hlit'
    rw [getNumericValue_str sep v _ hparse (roundToDouble_ne_nan false num den), hmil,
      toFixed3_roundToDouble num den n0 hden hq hn]
    exact ⟨rfl, hn⟩
  rcases hcase with hv | ⟨c, d2, hv, hc, hl2, hd2⟩
  · -- digits only
    obtain ⟨t1, t2⟩ := takeWhile_all_digits d1 hdig
    have hmil : millis sep v = digitsValue d1 * 1000 := by
      unfold millis
      rw [hv, t2, t1]
    have hrep : replaceFirst sep '.' v = x :: xs := by
      rw [hv, replaceFirst_not_mem sep '.' d1 hsd1, hd1]
    have hlit := strUnsigned_digits false d1 [] hne hdig (by intro c t h; cases h)
    simp only [fractionDigits, afterFraction, List.append_nil, exponentPart, List.length_nil,
      Nat.cast_zero, sub_zero] at hlit
    rw [hd1] at hlit
    refine fin xs _ _ (digitsValue d1 * 1000) hrep (Or.inl hlit) ?_ ?_ (by omega) hmil
    · simp [decimalFraction]
    · simp [decimalFraction, hd1]
  · have hgl := hP c hc
    unfold separatorGlyph at hgl
    simp only [Bool.and_eq_true, Bool.not_eq_true', bne_iff_ne, ne_eq] at hgl
    obtain ⟨⟨hcd, hce⟩, hcE⟩ := hgl
    have hv2 : digitsValue d2 < 10 ^ d2.length := digitsValue_lt d2 hd2
    have hsd2 : sep ∉ d2 := not_mem_digits sep d2 hsep hd2
    obtain ⟨t1, t2⟩ := takeWhile_digits d1 (c :: d2) hdig
      (by intro c' t h; cases h; exact hcd)
    obtain ⟨u1, u2⟩ := takeWhile_all_digits d2 hd2
    by_cases hdot : c = sep ∨ c = '.'
    · -- a fraction
      have hmil : millis sep v = digitsValue (d1 ++ d2) * 10 ^ (3 - d2.length) := by
        unfold millis
        rw [hv, t2, t1]
        simp only [hdot, if_true]
      have hrep : replaceFirst sep '.' v = x :: (xs ++ '.' :: d2) := by
        rw [hv]
        rcases hdot with h | h
        · rw [h, replaceFirst_append sep '.' d1 d2 hsd1, hd1]; rfl
        · rw [h] at hv hc hcd ⊢
          by_cases hs : sep = '.'
          · rw [hs, replaceFirst_append '.' '.' d1 d2 (hs ▸ hsd1), hd1]; rfl
          · rw [replaceFirst_not_mem sep '.' _ (by
              simp only [List.mem_append, List.mem_cons, not_or]
              exact ⟨hsd1, hs, hsd2⟩), hd1]; rfl
      have hlit := strUnsigned_digits false d1 ('.' :: d2) hne hdig
        (by intro c' t h; cases h; decide)
      simp only [fractionDigits, afterFraction, if_true, u1, u2, exponentPart, Nat.cast_zero] at hlit
      rw [hd1] at hlit
      obtain ⟨f1, f2⟩ := decimalFraction_neg (digitsValue (d1 ++ d2)) d2.length
      rw [hd1] at f1 f2
      have hpow : 10 ^ d2.length * 10 ^ (3 - d2.length) = 1000 := by
        rw [← pow_add, Nat.add_sub_cancel' hl2]; norm_num
      refine fin (xs ++ '.' :: d2) _ _ (digitsValue (d1 ++ d2) * 10 ^ (3 - d2.length)) hrep
        (Or.inl hlit) f2 ?_ ?_ hmil
      · rw [hd1]
        calc _ = (decimalFraction (digitsValue (x :: xs ++ d2)) (0 - (d2.length : Int))).1
              * 10 ^ d2.length * 10 ^ (3 - d2.length) := by rw [mul_assoc, hpow]
          _ = _ := by rw [f1]; ring
      · rw [digitsValue_append]
        have h3 : 10 ^ d2.length * 10 ^ (3 - d2.length) = 1000 := hpow
        have hA : digitsValue d1 * 10 ^ d2.length * 10 ^ (3 - d2.length) = digitsValue d1 * 1000 := by
          rw [mul_assoc, h3]
        have hB : digitsValue d2 * 10 ^ (3 - d2.length) < 1000 := by
          rw [← h3]
          exact Nat.mul_lt_mul_of_pos_right hv2 (by positivity)
        rw [add_mul, hA]
        omega
    · -- another separator: the literal ends before it
      have hcs : c ≠ sep := fun h => hdot (Or.inl h)
      have hcp : c ≠ '.' := fun h => hdot (Or.inr h)
      have hmil : millis sep v = digitsValue d1 * 1000 := by
        unfold millis
        rw [hv, t2, t1]
        simp only [hdot, if_false]
      have hrep : replaceFirst sep '.' v = x :: (xs ++ c :: d2) := by
        rw [hv, replaceFirst_not_mem sep '.' _ (by
          simp only [List.mem_append, List.mem_cons, not_or]
          exact ⟨hsd1, fun h => hcs h.symm, hsd2⟩), hd1]; rfl
      have hlit := strUnsigned_digits false d1 (c :: d2) hne hdig
        (by intro c' t h; cases h; exact hcd)
      simp only [fractionDigits, afterFraction, hcp, if_false, List.append_nil, List.length_nil,
        Nat.cast_zero, sub_zero, exponentPart, hce, hcE, or_self] at hlit
      rw [hd1] at hlit
      refine fin (xs ++ c :: d2) _ _ (digitsValue d1 * 1000) hrep (Or.inr ⟨_, hlit⟩) ?_ ?_
        (by omega) hmil
      · simp [decimalFraction]
      · simp [decimalFraction, hd1]

/-! ## The display string of an accepted input -/

theorem pad3_digits (r : Nat) (h : r < 1000) : ∀ c ∈ pad3 r, c.isDigit = true := by
  intro c hc
  unfold pad3 at hc
  simp only [List.mem_cons, List.mem_singleton, List.not_mem_nil, or_false] at hc
  rcases hc with hc | hc | hc <;> rw [hc] <;> apply digitChar_isDigit <;> omega

theorem pad3_length (r : Nat) : (pad3 r).length = 3 := rfl

theorem digitsValue_pad3 (r : Nat) (h : r < 1000) : digitsValue (pad3 r) = r := by
  unfold pad3
  simp only [digitsValue, List.foldl_cons, List.foldl_nil]
  rw [digitVal_digitChar _ (by omega : r / 100 < 10),
    digitVal_digitChar _ (by omega : r / 10 % 10 < 10),
    digitVal_digitChar _ (by omega : r % 10 < 10)]
  omega

/-- The display string that `setRate` stores for an accepted input: the value
with three decimals and the locale separator, cut to the length of the input. -/
theorem getRateDisplayValue_of_grammar (sep : Char) (permitted : List Char) (v : JSString)
    (hsep : sep.isDigit = false) (hP : ∀ c ∈ permitted, separatorGlyph c = true)
    (hv : rateValueRegex permitted v = true) :
    getRateDisplayValue sep (.str v) =
      (natToDigits (millis sep v / 1000) ++ sep :: pad3 (millis sep v % 1000)).take v.length := by
  obtain ⟨h1, h2⟩ := getNumericValue_of_grammar sep permitted v hsep hP hv
  have hlt : millis sep v / 1000 < 10 ^ (7 + 1) := by omega
  obtain ⟨a1, _, _, _⟩ := natToDigits_spec 7 _ hlt
  have hdot : '.' ∉ natToDigits (millis sep v / 1000) :=
    not_mem_digits '.' _ (by decide) a1
  unfold getRateDisplayValue
  rw [h1]
  simp only
  unfold fixed3
  rw [replaceFirst_append '.' sep _ _ hdot]

theorem grammar_take (permitted : List Char) (d f : JSString) (c : Char) (n : Nat)
    (hd : ∀ x ∈ d, x.isDigit = true) (hdne : d ≠ []) (hdl : d.length ≤ 8)
    (hf : ∀ x ∈ f, x.isDigit = true) (hfl : f.length ≤ 3) (hc : c ∈ permitted) (hn : 0 < n) :
    rateValueRegex permitted ((d ++ c :: f).take n) = true := by
  rw [rateValueRegex_iff]
  have hpos : 0 < d.length := List.length_pos.mpr hdne
  by_cases hle : n ≤ d.length
  · refine ⟨d.take n, ?_, ?_, ?_, Or.inl ?_⟩
    · intro e
      have := congrArg List.length e
      simp only [List.length_take, List.length_nil] at this
      omega
    · simp only [List.length_take]; omega
    · intro x hx
      exact hd x (List.mem_of_mem_take hx)
    · rw [List.take_append_of_le_length hle]
  · refine ⟨d, hdne, hdl, hd, Or.inr ⟨c, f.take (n - d.length - 1), ?_, hc, ?_, ?_⟩⟩
    · rw [List.take_append_eq_append_take]
      have h1 : List.take n d = d := List.take_of_length_le (by omega)
      obtain ⟨k, hk⟩ : ∃ k, n - d.length = k + 1 := ⟨n - d.length - 1, by omega⟩
      rw [h1, hk]
      simp
    · simp only [List.length_take]; omega
    · intro x hx
      exact hf x (List.mem_of_mem_take hx)

theorem dropWhile_head {p : Char → Bool} : ∀ (l : List Char) (c : Char) (t : List Char),
    l.dropWhile p = c :: t → p c = false := by
  intro l
  induction l with
  | nil => intro c t h; cases h
  | cons x xs ih =>
    intro c t h
    by_cases hx : p x = true
    · rw [List.dropWhile_cons, if_pos hx] at h
      exact ih c t h
    · rw [List.dropWhile_cons, if_neg hx] at h
      cases h
      simpa using hx

/-- A string that starts with a digit parses to a number. -/
theorem getNumericValue_digit_head (sep x : Char) (r : JSString) (hsep : sep.isDigit = false)
    (hx : x.isDigit = true) : getNumericValue sep (.str (x :: r)) ≠ none := by
  have hxs : x ≠ sep := isDigit_ne x sep hx hsep
  have hrep : replaceFirst sep '.' (x :: r) = x :: replaceFirst sep '.' r := by
    simp [replaceFirst, hxs]
  generalize replaceFirst sep '.' r = r' at hrep
  have hsplit : x :: r' = (x :: r').takeWhile Char.isDigit ++ (x :: r').dropWhile Char.isDigit :=
    (List.takeWhile_append_dropWhile _ _).symm
  have hne : (x :: r').takeWhile Char.isDigit ≠ [] := by
    simp [List.takeWhile_cons, hx]
  have hd : ∀ c ∈ (x :: r').takeWhile Char.isDigit, c.isDigit = true :=
    fun c hc => List.mem_takeWhile_imp hc
  have hlit := strUnsigned_digits false _ _ hne hd (dropWhile_head (x :: r'))
  rw [← hsplit] at hlit
  have hparse := parseFloat_of_literal x r' _ _ hx hlit
  rw [← hrep] at hparse
  rw [getNumericValue_str sep (x :: r) _ hparse (roundToDouble_ne_nan _ _ _)]
  simp

theorem getNumericValue_empty (sep : Char) : getNumericValue sep (.str []) = none := rfl

theorem getRateDisplayValue_empty (sep : Char) : getRateDisplayValue sep (.str []) = [] := rfl

/-- An input that is not empty and fails the expression leaves the state as it
was. -/
theorem setRate_rejected (props : Props) (value : JSString) (prevState : State)
    (hne : value ≠ []) (hbad : rateValueRegex props.permittedSeparators value = false) :
    setRate props value prevState = prevState := by
  unfold setRate
  simp [hne, hbad]

/-! ## The properties of the rate input -/

/-- C1: for every locale separator, every prior state and every non-empty input
that the expression `^\d{1,8}([permitted]\d{0,3})?$` rejects, `setRate` leaves
`unitRateValue` and every other field of the state as they were. -/
theorem setRate_invalid_unchanged (props : Props) (value : JSString) (prevState : State)
    (hne : value ≠ []) (hbad : rateValueRegex props.permittedSeparators value = false) :
    setRate props value prevState = prevState :=
  setRate_rejected props value prevState hne hbad

theorem setRate_invalid_unchanged_witness :
    "123456789".toList ≠ [] ∧
      rateValueRegex (exampleProps '.' 250).permittedSeparators "123456789".toList = false ∧
      setRate (exampleProps '.' 250) "123456789".toList (constructor (exampleProps '.' 250))
        = constructor (exampleProps '.' 250) :=
  ⟨by decide, by decide,
    setRate_invalid_unchanged (exampleProps '.' 250) "123456789".toList
      (constructor (exampleProps '.' 250)) (by decide) (by decide)⟩

/-- C2: when the locale separator is one of the permitted separators and the
permitted separators are separator glyphs, `setRate` keeps the invariant that
`unitRateValue` is empty or matches the expression, for every input and every
prior state; and the display string of every accepted input (leading zeros, a
trailing separator, eight integer digits included) matches it. -/
theorem setRate_grammar_invariant (props : Props) (input : JSString) (prevState : State)
    (hmem : props.decimalSeparator ∈ props.permittedSeparators)
    (hP : ∀ c ∈ props.permittedSeparators, separatorGlyph c = true)
    (hprev : prevState.unitRateValue = [] ∨
      rateValueRegex props.permittedSeparators prevState.unitRateValue = true) :
    ((setRate props input prevState).unitRateValue = [] ∨
      rateValueRegex props.permittedSeparators (setRate props input prevState).unitRateValue
        = true) ∧
    (rateValueRegex props.permittedSeparators input = true →
      rateValueRegex props.permittedSeparators
        (getRateDisplayValue props.decimalSeparator (.str input)) = true) := by
  have hsep : props.decimalSeparator.isDigit = false := by
    have := hP _ hmem
    unfold separatorGlyph at this
    simp only [Bool.and_eq_true, Bool.not_eq_true'] at this
    exact this.1.1
  have hacc : rateValueRegex props.permittedSeparators input = true →
      rateValueRegex props.permittedSeparators
        (getRateDisplayValue props.decimalSeparator (.str input)) = true := by
    intro hv
    obtain ⟨_, h2⟩ := getNumericValue_of_grammar _ _ input hsep hP hv
    have hlt : millis props.decimalSeparator input / 1000 < 10 ^ (7 + 1) := by omega
    obtain ⟨a1, a2, a3, _⟩ := natToDigits_spec 7 _ hlt
    rw [getRateDisplayValue_of_grammar _ _ input hsep hP hv]
    have hpos : 0 < input.length := by
      obtain ⟨d1, hne, _, _, hcase⟩ := (rateValueRegex_iff _ input).mp hv
      have := List.length_pos.mpr hne
      rcases hcase with h | ⟨c, d2, h, _⟩ <;> rw [h]
      · exact this
      · simp
    exact grammar_take _ _ _ _ _ a1 a3 a2 (pad3_digits _ (Nat.mod_lt _ (by norm_num)))
      (by rw [pad3_length]) hmem hpos
  refine ⟨?_, hacc⟩
  by_cases hin : input = []
  · left
    subst hin
    unfold setRate
    simp only [ne_eq, not_true_eq_false, decide_False, Bool.false_and, Bool.not_false, if_true]
    exact getRateDisplayValue_empty _
  · cases hv : rateValueRegex props.permittedSeparators input with
    | false => rw [setRate_rejected props input prevState hin hv]; exact hprev
    | true =>
      right
      have : (setRate props input prevState).unitRateValue =
          getRateDisplayValue props.decimalSeparator (.str input) := by
        unfold setRate
        simp [hv]
      rw [this]
      exact hacc hv

theorem setRate_grammar_invariant_witness :
    (rateValueRegex (exampleProps ',' 250).permittedSeparators
      (setRate (exampleProps ',' 250) "00012345".toList
        (constructor (exampleProps ',' 250))).unitRateValue = true) ∧
    rateValueRegex (exampleProps ',' 250).permittedSeparators
      (getRateDisplayValue ',' (.str "12345678.".toList)) = true := by
  have h := setRate_grammar_invariant (exampleProps ',' 250) "00012345".toList
    (constructor (exampleProps ',' 250)) (by decide) (by decide) (Or.inr (by decide!))
  have h2 := setRate_grammar_invariant (exampleProps ',' 250) "12345678.".toList
    (constructor (exampleProps ',' 250)) (by decide) (by decide) (Or.inr (by decide!))
  refine ⟨?_, h2.2 (by decide)⟩
  rcases h.1 with h0 | h1
  · exact absurd h0 (by decide!)
  · exact h1

theorem pad3_eq (x y z : Nat) (hy : y < 10) (hz : z < 10) :
    pad3 (x * 100 + y * 10 + z) = [digitChar x, digitChar y, digitChar z] := by
  unfold pad3
  have e1 : (x * 100 + y * 10 + z) / 100 = x := by omega
  have e2 : (x * 100 + y * 10 + z) / 10 % 10 = y := by omega
  have e3 : (x * 100 + y * 10 + z) % 10 = z := by omega
  rw [e1, e2, e3]

theorem pad3_of_digits (d2 : JSString) (hd : ∀ c ∈ d2, c.isDigit = true) (hl : d2.length ≤ 3) :
    pad3 (digitsValue d2 * 10 ^ (3 - d2.length)) = d2 ++ List.replicate (3 - d2.length) '0' := by
  have h0 : digitChar 0 = '0' := rfl
  match d2, hd, hl with
  | [], _, _ => rfl
  | [a], hd, _ =>
    have ha := hd a (by simp)
    have e : digitsValue [a] * 10 ^ (3 - [a].length) = digitVal a * 100 + 0 * 10 + 0 := by
      simp [digitsValue]
    rw [e, pad3_eq _ _ _ (by norm_num) (by norm_num), digitChar_digitVal a ha,
      h0]
    rfl
  | [a, b], hd, _ =>
    have ha := hd a (by simp)
    have hb := hd b (by simp)
    have e : digitsValue [a, b] * 10 ^ (3 - [a, b].length)
        = digitVal a * 100 + digitVal b * 10 + 0 := by
      simp [digitsValue]; ring
    rw [e, pad3_eq _ _ _ (digitVal_lt b hb) (by norm_num),
      digitChar_digitVal a ha, digitChar_digitVal b hb, h0]
    rfl
  | [a, b, c], hd, _ =>
    have ha := hd a (by simp)
    have hb := hd b (by simp)
    have hc := hd c (by simp)
    have e : digitsValue [a, b, c] * 10 ^ (3 - [a, b, c].length)
        = digitVal a * 100 + digitVal b * 10 + digitVal c := by
      simp [digitsValue]; ring
    rw [e, pad3_eq _ _ _ (digitVal_lt b hb) (digitVal_lt c hc),
      digitChar_digitVal a ha, digitChar_digitVal b hb, digitChar_digitVal c hc]
    rfl
  | _ :: _ :: _ :: _ :: _, _, hl =>
    simp only [List.length_cons] at hl
    omega

/-- C4, as the code has it: for every input that matches the expression, whose
integer part has no superfluous leading zero and whose separator, if any, is
the separator of the locale, `setRate` stores the input as typed. -/
theorem setRate_verbatim (props : Props) (input : JSString) (prevState : State)
    (hmem : props.decimalSeparator ∈ props.permittedSeparators)
    (hP : ∀ c ∈ props.permittedSeparators, separatorGlyph c = true)
    (hv : rateValueRegex props.permittedSeparators input = true)
    (hlead : input.head? = some '0' → input.takeWhile Char.isDigit = ['0'])
    (hloc : ∀ c ∈ input, c.isDigit = true ∨ c = props.decimalSeparator) :
    (setRate props input prevState).unitRateValue = input := by
  have hsep : props.decimalSeparator.isDigit = false := by
    have := hP _ hmem
    unfold separatorGlyph at this
    simp only [Bool.and_eq_true, Bool.not_eq_true'] at this
    exact this.1.1
  have hset : (setRate props input prevState).unitRateValue =
      getRateDisplayValue props.decimalSeparator (.str input) := by
    unfold setRate
    simp [hv]
  rw [hset, getRateDisplayValue_of_grammar _ _ input hsep hP hv]
  obtain ⟨d1, hne, hlen, hdig, hcase⟩ := (rateValueRegex_iff _ input).mp hv
  obtain ⟨x, xs, hd1⟩ : ∃ x xs, d1 = x :: xs := by
    cases d1 with
    | nil => exact absurd rfl hne
    | cons x xs => exact ⟨x, xs, rfl⟩
  rcases hcase with hin | ⟨c, d2, hin, hc, hl2, hd2⟩
  · obtain ⟨t1, t2⟩ := takeWhile_all_digits d1 hdig
    have hmil : millis props.decimalSeparator input = digitsValue d1 * 1000 := by
      unfold millis
      rw [hin, t2, t1]
    have hcanon : natToDigits (digitsValue d1) = d1 := by
      apply natToDigits_digitsValue d1 hne hdig
      intro h0
      rw [hin, t1] at hlead
      exact hlead h0
    have e1 : digitsValue d1 * 1000 / 1000 = digitsValue d1 := by omega
    rw [hmil, e1, hcanon, hin]
    exact List.take_left' rfl
  · have hcd : c.isDigit = false := by
      have := hP c hc
      unfold separatorGlyph at this
      simp only [Bool.and_eq_true, Bool.not_eq_true'] at this
      exact this.1.1
    have hcs : c = props.decimalSeparator := by
      rcases hloc c (by rw [hin]; simp) with h | h
      · rw [hcd] at h; exact Bool.noConfusion h
      · exact h
    obtain ⟨t1, t2⟩ := takeWhile_digits d1 (c :: d2) hdig (by intro c' t h; cases h; exact hcd)
    have hmil : millis props.decimalSeparator input
        = digitsValue (d1 ++ d2) * 10 ^ (3 - d2.length) := by
      unfold millis
      rw [hin, t2, t1]
      simp only [hcs, true_or, if_true]
    have hcanon : natToDigits (digitsValue d1) = d1 := by
      apply natToDigits_digitsValue d1 hne hdig
      intro h0
      rw [hin, t1] at hlead
      apply hlead
      rw [hd1] at h0 ⊢
      simpa using h0
    have hv2 : digitsValue d2 < 10 ^ d2.length := digitsValue_lt d2 hd2
    have hpow : 10 ^ d2.length * 10 ^ (3 - d2.length) = 1000 := by
      rw [← pow_add, Nat.add_sub_cancel' hl2]; norm_num
    have hA : digitsValue d1 * 10 ^ d2.length * 10 ^ (3 - d2.length) = digitsValue d1 * 1000 := by
      rw [mul_assoc, hpow]
    have hB : digitsValue d2 * 10 ^ (3 - d2.length) < 1000 := by
      rw [← hpow]
      exact Nat.mul_lt_mul_of_pos_right hv2 (by positivity)
    have hsum : digitsValue (d1 ++ d2) * 10 ^ (3 - d2.length)
        = digitsValue d1 * 1000 + digitsValue d2 * 10 ^ (3 - d2.length) := by
      rw [digitsValue_append, add_mul, hA]
    have e1 : digitsValue (d1 ++ d2) * 10 ^ (3 - d2.length) / 1000 = digitsValue d1 := by
      rw [hsum]; omega
    have e2 : digitsValue (d1 ++ d2) * 10 ^ (3 - d2.length) % 1000
        = digitsValue d2 * 10 ^ (3 - d2.length) := by
      rw [hsum]; omega
    rw [hmil, e1, e2, hcanon, pad3_of_digits d2 hd2 hl2, hin, ← hcs]
    have hassoc : d1 ++ c :: (d2 ++ List.replicate (3 - d2.length) '0')
        = (d1 ++ c :: d2) ++ List.replicate (3 - d2.length) '0' := by simp
    rw [hassoc]
    exact List.take_left' rfl

theorem setRate_verbatim_witness :
    (setRate (exampleProps ',' 250) "12345678,5".toList
      (constructor (exampleProps ',' 250))).unitRateValue = "12345678,5".toList :=
  setRate_verbatim (exampleProps ',' 250) "12345678,5".toList (constructor (exampleProps ',' 250))
    (by decide) (by decide) (by decide) (by decide) (by decide)

/-- C4 fails as stated: the accepted input `007` is stored as `7.0`, and `1,5`,
typed with the permitted comma under the locale separator `.`, as `1.0`. -/
theorem setRate_verbatim_counterexample :
    rateValueRegex (exampleProps '.' 250).permittedSeparators "007".toList = true ∧
    (setRate (exampleProps '.' 250) "007".toList
      (constructor (exampleProps '.' 250))).unitRateValue = "7.0".toList ∧
    rateValueRegex (exampleProps '.' 250).permittedSeparators "1,5".toList = true ∧
    (setRate (exampleProps '.' 250) "1,5".toList
      (constructor (exampleProps '.' 250))).unitRateValue = "1.0".toList := by
  decide!

/-- C10, as the code has it: for every input that is not empty and every prior
state whose `unitRateValue` parses to a number, the `unitRateValue` that
`setRate` stores parses to a number, so `updateRateValue` makes a request. -/
theorem setRate_commit_parses (props : Props) (input : JSString) (prevState : State)
    (hmem : props.decimalSeparator ∈ props.permittedSeparators)
    (hP : ∀ c ∈ props.permittedSeparators, separatorGlyph c = true)
    (hne : input ≠ [])
    (hprev : getNumericValue props.decimalSeparator (.str prevState.unitRateValue) ≠ none) :
    getNumericValue props.decimalSeparator (.str (setRate props input prevState).unitRateValue)
        ≠ none ∧
      ∀ state, updateRateValue props state (setRate props input prevState).unitRateValue
        ≠ none := by
  have hsep : props.decimalSeparator.isDigit = false := by
    have := hP _ hmem
    unfold separatorGlyph at this
    simp only [Bool.and_eq_true, Bool.not_eq_true'] at this
    exact this.1.1
  have hmain : getNumericValue props.decimalSeparator
      (.str (setRate props input prevState).unitRateValue) ≠ none := by
    cases hv : rateValueRegex props.permittedSeparators input with
    | false => rw [setRate_rejected props input prevState hne hv]; exact hprev
    | true =>
      have hset : (setRate props input prevState).unitRateValue =
          getRateDisplayValue props.decimalSeparator (.str input) := by
        unfold setRate
        simp [hv]
      obtain ⟨_, h2⟩ := getNumericValue_of_grammar _ _ input hsep hP hv
      have hlt : millis props.decimalSeparator input / 1000 < 10 ^ (7 + 1) := by omega
      obtain ⟨a1, _, a3, _⟩ := natToDigits_spec 7 _ hlt
      rw [hset, getRateDisplayValue_of_grammar _ _ input hsep hP hv]
      obtain ⟨y, ys, hy⟩ : ∃ y ys, natToDigits (millis props.decimalSeparator input / 1000)
          = y :: ys := by
        cases h : natToDigits (millis props.decimalSeparator input / 1000) with
        | nil => exact absurd h a3
        | cons y ys => exact ⟨y, ys, rfl⟩
      obtain ⟨n, hn⟩ : ∃ n, input.length = n + 1 := by
        cases input with
        | nil => exact absurd rfl hne
        | cons i is => exact ⟨is.length, rfl⟩
      rw [hy, hn]
      simp only [List.cons_append, List.take_succ_cons]
      exact getNumericValue_digit_head _ y _ hsep (a1 y (by rw [hy]; simp))
  refine ⟨hmain, ?_⟩
  intro state
  unfold updateRateValue
  cases h : getNumericValue props.decimalSeparator
      (.str (setRate props input prevState).unitRateValue) with
  | none => exact absurd h hmain
  | some nv => simp

theorem setRate_commit_parses_witness :
    getNumericValue ',' (.str (setRate (exampleProps ',' 250) "1,5".toList
      (constructor (exampleProps ',' 250))).unitRateValue) ≠ none :=
  (setRate_commit_parses (exampleProps ',' 250) "1,5".toList (constructor (exampleProps ',' 250))
    (by decide) (by decide) (by decide) (by decide!)).1

/-- C10 fails as stated: from a state whose `unitRateValue` parses, the empty
input passes the validation of `setRate`, the empty string is stored, and
`updateRateValue` drops it without a request. -/
theorem setRate_commit_parses_counterexample :
    getNumericValue '.' (.str (constructor (exampleProps '.' 250)).unitRateValue) ≠ none ∧
    (setRate (exampleProps '.' 250) [] (constructor (exampleProps '.' 250))).unitRateValue = [] ∧
    updateRateValue (exampleProps '.' 250) (constructor (exampleProps '.' 250))
      (setRate (exampleProps '.' 250) [] (constructor (exampleProps '.' 250))).unitRateValue
      = none := by
  decide!

/-! ## The number that is sent -/

theorem log2_zero : log2 0 = 0 := rfl

/-- An integer below `2^53` is a binary64 value. -/
theorem roundToDouble_exact (neg : Bool) (k den : Nat) (hden : 0 < den) (hk : k < 2 ^ 53) :
    roundToDouble neg (k * den) den = .fin neg (k * UNITS) := by
  have hdiv : k * den * UNITS / den = k * UNITS := by
    rw [mul_assoc, mul_comm den, ← mul_assoc]
    exact Nat.mul_div_cancel _ hden
  have hlt : k * UNITS < 2 ^ 1127 := by
    have : k * UNITS < 2 ^ 53 * 2 ^ 1074 := by
      unfold UNITS
      exact Nat.mul_lt_mul_of_lt_of_le hk (le_refl _) (Nat.two_pow_pos 1074)
    rwa [← pow_add] at this
  have hsh : log2 (k * UNITS) - 52 ≤ 1074 := by
    have := log2_lt_of_lt _ 1127 (by norm_num) hlt
    omega
  generalize hshd : log2 (k * UNITS) - 52 = sh at hsh
  obtain ⟨q, hq⟩ : ∃ q, k * UNITS = q * 2 ^ sh := by
    refine ⟨k * 2 ^ (1074 - sh), ?_⟩
    unfold UNITS
    rw [mul_assoc, ← pow_add, Nat.sub_add_cancel hsh]
  have hpos : 0 < den * 2 ^ sh := by positivity
  have hround : roundHalfEven (k * den * UNITS) (den * 2 ^ sh) = q := by
    have ha : k * den * UNITS = q * (den * 2 ^ sh) := by
      calc k * den * UNITS = den * (k * UNITS) := by ring
        _ = den * (q * 2 ^ sh) := by rw [hq]
        _ = q * (den * 2 ^ sh) := by ring
    unfold roundHalfEven
    rw [ha, Nat.mul_mod_left, Nat.mul_div_cancel _ hpos]
    simp [hpos]
  have hov : ¬ 2 ^ 2098 ≤ q * 2 ^ sh := by
    rw [← hq]
    have : (2 : Nat) ^ 1127 ≤ 2 ^ 2098 := Nat.pow_le_pow_right (by norm_num) (by norm_num)
    omega
  unfold roundToDouble
  simp only [hdiv, hshd, hround]
  rw [if_neg hov, hq]

theorem not_radix_marker (y : Char) (h : y.isDigit = true ∨ y = '.') :
    y ≠ 'x' ∧ y ≠ 'X' ∧ y ≠ 'o' ∧ y ≠ 'O' ∧ y ≠ 'b' ∧ y ≠ 'B' := by
  rcases h with h | h
  · exact ⟨isDigit_ne y _ h (by decide), isDigit_ne y _ h (by decide),
      isDigit_ne y _ h (by decide), isDigit_ne y _ h (by decide),
      isDigit_ne y _ h (by decide), isDigit_ne y _ h (by decide)⟩
  · subst h
    decide

/-- The string that `toFixed(3)` prints for `n0 / 1000` converts back to the
binary64 nearest to `n0 / 1000`. -/
theorem stringToNumber_fixed3 (n0 : Nat) (hn : n0 < 10 ^ 11) :
    stringToNumber (fixed3 n0) = roundToDouble false n0 1000 := by
  have hlt : n0 / 1000 < 10 ^ (7 + 1) := by omega
  obtain ⟨a1, _, a3, a4⟩ := natToDigits_spec 7 _ hlt
  have hr : n0 % 1000 < 1000 := Nat.mod_lt _ (by norm_num)
  have hpd := pad3_digits _ hr
  obtain ⟨x, xs, hD⟩ : ∃ x xs, natToDigits (n0 / 1000) = x :: xs := by
    cases h : natToDigits (n0 / 1000) with
    | nil => exact absurd h a3
    | cons y ys => exact ⟨y, ys, rfl⟩
  have hx : x.isDigit = true := a1 x (by rw [hD]; simp)
  have hw : isWhiteSpace x = false := isWhiteSpace_digit x hx
  have hm : x ≠ '-' := isDigit_ne x '-' hx (by decide)
  have hp : x ≠ '+' := isDigit_ne x '+' hx (by decide)
  -- the literal
  obtain ⟨u1, u2⟩ := takeWhile_all_digits (pad3 (n0 % 1000)) hpd
  have hlit := strUnsigned_digits false (natToDigits (n0 / 1000)) ('.' :: pad3 (n0 % 1000)) a3 a1
    (by intro c' t h; cases h; decide)
  simp only [fractionDigits, afterFraction, if_true, u1, u2, exponentPart, Nat.cast_zero,
    pad3_length, Nat.cast_ofNat] at hlit
  have hval : digitsValue (natToDigits (n0 / 1000) ++ pad3 (n0 % 1000)) = n0 := by
    rw [digitsValue_append, a4, digitsValue_pad3 _ hr, pad3_length]
    omega
  have hfrac : decimalFraction n0 (0 - 3) = (n0, 1000) := by
    unfold decimalFraction
    simp
  rw [hval, hfrac] at hlit
  -- no white space at the end
  have hlast : ∃ pre l, fixed3 n0 = pre ++ [l] ∧ isWhiteSpace l = false := by
    refine ⟨natToDigits (n0 / 1000) ++ ['.', digitChar (n0 % 1000 / 100),
      digitChar (n0 % 1000 / 10 % 10)], digitChar (n0 % 1000 % 10), ?_, ?_⟩
    · simp [fixed3, pad3]
    · exact isWhiteSpace_digit _ (digitChar_isDigit _ (by omega))
  obtain ⟨pre, l, hpre, hl⟩ := hlast
  have htrim : ((List.dropWhile isWhiteSpace (fixed3 n0)).reverse.dropWhile isWhiteSpace).reverse
      = fixed3 n0 := by
    have h1 : List.dropWhile isWhiteSpace (fixed3 n0) = fixed3 n0 := by
      unfold fixed3
      rw [hD]
      simp [List.dropWhile_cons, hw]
    rw [h1, hpre]
    simp [List.dropWhile_cons, hl]
  have hform : fixed3 n0 = x :: (xs ++ '.' :: pad3 (n0 % 1000)) := by
    unfold fixed3
    rw [hD]
    rfl
  have hsecond : ∃ y ys, xs ++ '.' :: pad3 (n0 % 1000) = y :: ys ∧ (y.isDigit = true ∨ y = '.') := by
    cases xs with
    | nil => exact ⟨'.', _, rfl, Or.inr rfl⟩
    | cons y ys => exact ⟨y, _, rfl, Or.inl (a1 y (by rw [hD]; simp))⟩
  obtain ⟨y, ys, hy, hyd⟩ := hsecond
  obtain ⟨n1, n2, n3, n4, n5, n6⟩ := not_radix_marker y hyd
  unfold stringToNumber
  simp only [htrim]
  rw [hform, hy]
  simp only [n1, n2, n3, n4, n5, n6, or_self, and_false, if_false, ne_eq, not_true_eq_false,
    signPart, hm, hp]
  rw [← hy]
  rw [hD] at hlit
  simp only [List.cons_append] at hlit
  rw [hlit]

theorem units_split (a b : Nat) (h : a + b = 1074) : 2 ^ a * 2 ^ b = UNITS := by
  unfold UNITS
  rw [← pow_add, h]

theorem units_lt (k : Nat) (a : Nat) (hk : k < 2 ^ a) (ha : a + 1074 ≤ 2098) :
    k * UNITS < 2 ^ 2098 := by
  have h1 : k * UNITS < 2 ^ a * UNITS :=
    Nat.mul_lt_mul_of_pos_right hk (by unfold UNITS; positivity)
  have h2 : 2 ^ a * UNITS = 2 ^ (a + 1074) := by
    unfold UNITS
    rw [← pow_add]
  have h3 : (2 : Nat) ^ (a + 1074) ≤ 2 ^ 2098 := Nat.pow_le_pow_right (by norm_num) ha
  rw [h2] at h1
  exact lt_of_lt_of_le h1 h3

theorem units_lt_pow (k x : Nat) (a : Nat) (hx : x < k * UNITS) (hk : k ≤ 2 ^ a) :
    x < 2 ^ (a + 1074) := by
  have h1 : k * UNITS ≤ 2 ^ a * UNITS := Nat.mul_le_mul_right _ hk
  have h2 : 2 ^ a * UNITS = 2 ^ (a + 1074) := by
    unfold UNITS
    rw [← pow_add]
  rw [h2] at h1
  exact lt_of_lt_of_le hx h1

/-- The binary64 nearest to `n0 / 1000`, for `n0` of at most eleven digits, is
within `2^-27` of it. -/
theorem roundToDouble_millis (n0 : Nat) (hn : n0 < 10 ^ 11) :
    ∃ m E, roundToDouble false n0 1000 = .fin false m ∧ E * 67108864 ≤ UNITS ∧
      1000 * m ≤ n0 * UNITS + 500 * E ∧ n0 * UNITS ≤ 1000 * m + 500 * E := by
  have hU : 0 < UNITS := by unfold UNITS; positivity
  have hF : n0 * UNITS / 1000 < 2 ^ 1101 := by
    have h1 : n0 * UNITS / 1000 < 10 ^ 8 * UNITS := by
      apply Nat.div_lt_of_lt_mul
      have : n0 * UNITS < 10 ^ 11 * UNITS := Nat.mul_lt_mul_of_pos_right hn hU
      calc n0 * UNITS < 10 ^ 11 * UNITS := this
        _ = 1000 * (10 ^ 8 * UNITS) := by ring
    exact units_lt_pow (10 ^ 8) _ 27 h1 (by norm_num)
  have hsh : log2 (n0 * UNITS / 1000) - 52 ≤ 1048 := by
    have := log2_lt_of_lt _ 1101 (by norm_num) hF
    omega
  generalize hshd : log2 (n0 * UNITS / 1000) - 52 = sh at hsh
  have hE : 2 ^ sh * 67108864 ≤ UNITS := by
    have h1 : 2 ^ sh * 2 ^ (1074 - sh) = UNITS := units_split sh (1074 - sh) (by omega)
    have h2 : (2 : Nat) ^ 26 ≤ 2 ^ (1074 - sh) := Nat.pow_le_pow_right (by norm_num) (by omega)
    have h3 : 2 ^ sh * 2 ^ 26 ≤ 2 ^ sh * 2 ^ (1074 - sh) := Nat.mul_le_mul_left _ h2
    have h4 : (2 : Nat) ^ 26 = 67108864 := by norm_num
    rw [h4] at h3
    omega
  have hb : 0 < 1000 * 2 ^ sh := by positivity
  obtain ⟨e1, e2⟩ := roundHalfEven_spec (n0 * UNITS) (1000 * 2 ^ sh) hb
  generalize hr : roundHalfEven (n0 * UNITS) (1000 * 2 ^ sh) = r at e1 e2
  have hrb : r * (1000 * 2 ^ sh) = 1000 * (r * 2 ^ sh) := by ring
  rw [hrb] at e1 e2
  have hov : ¬ 2 ^ 2098 ≤ r * 2 ^ sh := by
    have h3 : n0 * UNITS ≤ 10 ^ 11 * UNITS := Nat.mul_le_mul_right _ (le_of_lt hn)
    have h4 : 10 ^ 11 * UNITS = 100 * (10 ^ 9 * UNITS) := by ring
    have h5 : r * 2 ^ sh ≤ 10 ^ 9 * UNITS := by omega
    exact Nat.not_le.mpr (lt_of_le_of_lt h5 (units_lt (10 ^ 9) 40 (by norm_num) (by norm_num)))
  refine ⟨r * 2 ^ sh, 2 ^ sh, ?_, hE, by omega, by omega⟩
  unfold roundToDouble
  simp only [hshd, hr]
  rw [if_neg hov]

/-- The rate that is sent for the typed value `n0 / 1000` is within `1/10000`
of `n0 / 10`, the value times 100. -/
theorem mulNat_near (n0 : Nat) (hn : n0 < 10 ^ 11) :
    ((roundToDouble false n0 1000).mulNat 100).near n0 10 10000 = true := by
  have hU : 0 < UNITS := by unfold UNITS; positivity
  obtain ⟨m, E, hm, hE, c1, c2⟩ := roundToDouble_millis n0 hn
  have hmU : m ≤ 10 ^ 9 * UNITS := by
    have h3 : n0 * UNITS ≤ 10 ^ 11 * UNITS := Nat.mul_le_mul_right _ (le_of_lt hn)
    have : 10 ^ 11 * UNITS = 100 * (10 ^ 9 * UNITS) := by ring
    omega
  have hdiv : m * 100 * UNITS / UNITS = m * 100 := Nat.mul_div_cancel _ hU
  have hF : m * 100 < 2 ^ 1111 := by
    have h1 : m * 100 ≤ 10 ^ 11 * UNITS := by
      have : 10 ^ 11 * UNITS = 100 * (10 ^ 9 * UNITS) := by ring
      omega
    have h2 : m * 100 < (10 ^ 11 + 1) * UNITS := by
      have : (10 ^ 11 + 1) * UNITS = 10 ^ 11 * UNITS + UNITS := by ring
      omega
    exact units_lt_pow (10 ^ 11 + 1) _ 37 h2 (by norm_num)
  have hsh : log2 (m * 100) - 52 ≤ 1058 := by
    have := log2_lt_of_lt _ 1111 (by norm_num) hF
    omega
  generalize hshd : log2 (m * 100) - 52 = sh at hsh
  have hE2 : 2 ^ sh * 65536 ≤ UNITS := by
    have h1 : 2 ^ sh * 2 ^ (1074 - sh) = UNITS := units_split sh (1074 - sh) (by omega)
    have h2 : (2 : Nat) ^ 16 ≤ 2 ^ (1074 - sh) := Nat.pow_le_pow_right (by norm_num) (by omega)
    have h3 : 2 ^ sh * 2 ^ 16 ≤ 2 ^ sh * 2 ^ (1074 - sh) := Nat.mul_le_mul_left _ h2
    have h4 : (2 : Nat) ^ 16 = 65536 := by norm_num
    rw [h4] at h3
    omega
  have hb : 0 < UNITS * 2 ^ sh := Nat.mul_pos hU (Nat.two_pow_pos sh)
  obtain ⟨e1, e2⟩ := roundHalfEven_spec (m * 100 * UNITS) (UNITS * 2 ^ sh) hb
  generalize hr : roundHalfEven (m * 100 * UNITS) (UNITS * 2 ^ sh) = r at e1 e2
  have f1 : 2 * (r * 2 ^ sh) ≤ 200 * m + 2 ^ sh := by
    apply Nat.le_of_mul_le_mul_right _ hU
    calc 2 * (r * 2 ^ sh) * UNITS = 2 * (r * (UNITS * 2 ^ sh)) := by ring
      _ ≤ 2 * (m * 100 * UNITS) + UNITS * 2 ^ sh := e1
      _ = (200 * m + 2 ^ sh) * UNITS := by ring
  have f2 : 200 * m ≤ 2 * (r * 2 ^ sh) + 2 ^ sh := by
    apply Nat.le_of_mul_le_mul_right _ hU
    calc 200 * m * UNITS = 2 * (m * 100 * UNITS) := by ring
      _ ≤ 2 * (r * (UNITS * 2 ^ sh)) + UNITS * 2 ^ sh := e2
      _ = (2 * (r * 2 ^ sh) + 2 ^ sh) * UNITS := by ring
  have hov : ¬ 2 ^ 2098 ≤ r * 2 ^ sh := by
    have h5 : 10 ^ 12 * UNITS = 1000 * (10 ^ 9 * UNITS) := by ring
    have h6 : r * 2 ^ sh ≤ 10 ^ 12 * UNITS := by omega
    have h7 : r * 2 ^ sh < (10 ^ 12 + 1) * UNITS := by
      have : (10 ^ 12 + 1) * UNITS = 10 ^ 12 * UNITS + UNITS := by ring
      omega
    exact Nat.not_le.mpr (lt_trans h7 (units_lt (10 ^ 12 + 1) 40 (by norm_num) (by norm_num)))
  have hval : (roundToDouble false n0 1000).mulNat 100 = .fin false (r * 2 ^ sh) := by
    rw [hm]
    unfold JSNumber.mulNat roundToDouble
    simp only [hdiv, hshd, hr]
    rw [if_neg hov]
  rw [hval]
  unfold JSNumber.near
  simp only [Bool.and_eq_true, decide_eq_true_eq]
  constructor <;> omega

/-- A multiple of a quarter below `2^51` is a binary64 value. -/
theorem roundToDouble_quarter (neg : Bool) (k d : Nat) (hd : 0 < d) (hk : k < 2 ^ 53) :
    roundToDouble neg (k * d) (d * 4) = .fin neg (k * 2 ^ 1072) := by
  have hQ : 4 * 2 ^ 1072 = UNITS := by
    have h := units_split 2 1072 (by norm_num)
    rw [show (2 : Nat) ^ 2 = 4 by norm_num] at h
    exact h
  have hdiv : k * d * UNITS / (d * 4) = k * 2 ^ 1072 := by
    have : k * d * UNITS = d * 4 * (k * 2 ^ 1072) := by
      rw [← hQ]; ring
    rw [this]
    exact Nat.mul_div_cancel_left _ (by omega)
  have hlt : k * 2 ^ 1072 < 2 ^ 1125 := by
    have h1 : k * 2 ^ 1072 < 2 ^ 53 * 2 ^ 1072 :=
      Nat.mul_lt_mul_of_pos_right hk (Nat.two_pow_pos 1072)
    rwa [← pow_add] at h1
  have hsh : log2 (k * 2 ^ 1072) - 52 ≤ 1072 := by
    have := log2_lt_of_lt _ 1125 (by norm_num) hlt
    omega
  generalize hshd : log2 (k * 2 ^ 1072) - 52 = sh at hsh
  obtain ⟨q, hq⟩ : ∃ q, k * 2 ^ 1072 = q * 2 ^ sh := by
    refine ⟨k * 2 ^ (1072 - sh), ?_⟩
    rw [mul_assoc, ← pow_add, Nat.sub_add_cancel hsh]
  have hpos : 0 < d * 4 * 2 ^ sh := Nat.mul_pos (by omega) (Nat.two_pow_pos sh)
  have hround : roundHalfEven (k * d * UNITS) (d * 4 * 2 ^ sh) = q := by
    have ha : k * d * UNITS = q * (d * 4 * 2 ^ sh) := by
      calc k * d * UNITS = d * 4 * (k * 2 ^ 1072) := by rw [← hQ]; ring
        _ = d * 4 * (q * 2 ^ sh) := by rw [hq]
        _ = q * (d * 4 * 2 ^ sh) := by ring
    unfold roundHalfEven
    rw [ha, Nat.mul_mod_left, Nat.mul_div_cancel _ hpos]
    simp [hpos]
  have hov : ¬ 2 ^ 2098 ≤ q * 2 ^ sh := by
    rw [← hq]
    have : (2 : Nat) ^ 1125 ≤ 2 ^ 2098 := Nat.pow_le_pow_right (by norm_num) (by norm_num)
    exact Nat.not_le.mpr (lt_of_lt_of_le hlt this)
  unfold roundToDouble
  simp only [hdiv, hshd, hround]
  rw [if_neg hov, hq]

/-- The rate that is sent for a typed value that is a multiple of a quarter is
the value times 100, exactly. -/
theorem mulNat_quarter (n0 : Nat) (hn : n0 < 10 ^ 11) (h250 : n0 % 250 = 0) :
    (roundToDouble false n0 1000).mulNat 100 = JSNumber.ofNat (n0 / 10) := by
  have hQ : 4 * 2 ^ 1072 = UNITS := by
    have h := units_split 2 1072 (by norm_num)
    rw [show (2 : Nat) ^ 2 = 4 by norm_num] at h
    exact h
  obtain ⟨t, ht⟩ : ∃ t, n0 = t * 250 := ⟨n0 / 250, by omega⟩
  have ht1 : t < 2 ^ 53 := by
    have : (10 : Nat) ^ 11 < 2 ^ 53 := by norm_num
    omega
  have ht2 : t * 25 < 2 ^ 53 := by
    have : (10 : Nat) ^ 11 < 2 ^ 53 := by norm_num
    omega
  have e1 : roundToDouble false n0 1000 = .fin false (t * 2 ^ 1072) := by
    have h := roundToDouble_quarter false t 250 (by norm_num) ht1
    rw [show 250 * 4 = 1000 by norm_num, ← ht] at h
    exact h
  have e2 := roundToDouble_exact false (t * 25) UNITS (by unfold UNITS; positivity) ht2
  have e3 := roundToDouble_exact false (t * 25) 1 (by norm_num) ht2
  rw [mul_one] at e3
  have e4 : t * 2 ^ 1072 * 100 = t * 25 * UNITS := by
    rw [← hQ]; ring
  have e5 : n0 / 10 = t * 25 := by omega
  rw [e1, e5]
  unfold JSNumber.mulNat JSNumber.ofNat
  simp only
  rw [e4, e2, e3]

/-- C8, as the code has it: for every display string that matches the
expression, `updateRateValue` requests an update whose other fields are those of
the current rate entry and whose rate is a finite number within `1/10000` of the
parsed value times the base offset 100 (`millis / 10`); the rate is exactly that
product, an integer, when the parsed value is a multiple of a quarter, as it is
for every string of digits only. -/
theorem updateRateValue_request (props : Props) (state : State) (value : JSString)
    (hmem : props.decimalSeparator ∈ props.permittedSeparators)
    (hP : ∀ c ∈ props.permittedSeparators, separatorGlyph c = true)
    (hv : rateValueRegex props.permittedSeparators value = true) :
    ∃ r, updateRateValue props state value = some r ∧
      r.currentCustomUnitRate
        = currentRate (findUnit props.policy "Distance".toList) state.unitRateID ∧
      r.values.customUnitRateID = r.currentCustomUnitRate.customUnitRateID ∧
      r.values.name = r.currentCustomUnitRate.name ∧
      r.values.other = r.currentCustomUnitRate.other ∧
      (∃ x, r.values.rate = some x ∧
        x.near (millis props.decimalSeparator value) 10 10000 = true) ∧
      (millis props.decimalSeparator value % 250 = 0 →
        r.values.rate = some (JSNumber.ofNat (millis props.decimalSeparator value / 10))) := by
  have hsep : props.decimalSeparator.isDigit = false := by
    have := hP _ hmem
    unfold separatorGlyph at this
    simp only [Bool.and_eq_true, Bool.not_eq_true'] at this
    exact this.1.1
  obtain ⟨h1, h2⟩ := getNumericValue_of_grammar _ _ value hsep hP hv
  unfold updateRateValue
  rw [h1]
  simp only [stringToNumber_fixed3 _ h2, CUSTOM_UNIT_RATE_BASE_OFFSET]
  exact ⟨_, rfl, rfl, rfl, rfl, rfl, ⟨_, rfl, mulNat_near _ h2⟩,
    fun h250 => congrArg some (mulNat_quarter _ h2 h250)⟩

theorem updateRateValue_request_witness :
    ∃ r, updateRateValue (exampleProps ',' 250) (constructor (exampleProps ',' 250))
        "12,5".toList = some r ∧
      r.values.rate = some (JSNumber.ofNat 1250) ∧
      r.values.other = [("pendingAction".toList, "update".toList)] := by
  obtain ⟨r, h1, h2, _, _, h5, _, h7⟩ :=
    updateRateValue_request (exampleProps ',' 250) (constructor (exampleProps ',' 250))
      "12,5".toList (by decide) (by decide) (by decide)
  have hm : millis (exampleProps ',' 250).decimalSeparator "12,5".toList = 12500 := by decide!
  rw [hm] at h7
  have hc : currentRate (findUnit (exampleProps ',' 250).policy "Distance".toList)
      (constructor (exampleProps ',' 250)).unitRateID
      = { customUnitRateID := some "rate1".toList, name := some "Default Rate".toList,
          rate := some (JSNumber.ofNat 250),
          other := [("pendingAction".toList, "update".toList)] } := by decide!
  refine ⟨r, h1, h7 (by norm_num), ?_⟩
  rw [h5, h2, hc]

/-- C8 fails as stated: for the display string `1.005` the rate that is sent is
not an integer; it prints as `100.49999999999999`. -/
theorem updateRateValue_request_counterexample :
    rateValueRegex (exampleProps '.' 250).permittedSeparators "1.005".toList = true ∧
    (updateRateValue (exampleProps '.' 250) (constructor (exampleProps '.' 250))
      "1.005".toList).map (fun r => r.values.rate.map JSNumber.isInteger) = some (some false) ∧
    (updateRateValue (exampleProps '.' 250) (constructor (exampleProps '.' 250))
      "1.005".toList).map (fun r => r.values.rate.map numberToString)
      = some (some "100.49999999999999".toList) := by
  decide!

/-- C3 at the stored rate 57, with the locale separator `.`: the constructor
displays `0.570`, and `updateRateValue` of that string sends a rate that is not
57: it prints as `56.99999999999999`. -/
theorem roundTrip_57 :
    (constructor (exampleProps '.' 57)).unitRateValue = "0.570".toList ∧
    (updateRateValue (exampleProps '.' 57) (constructor (exampleProps '.' 57))
      (constructor (exampleProps '.' 57)).unitRateValue).map (fun r => r.values.rate)
      ≠ some (some (JSNumber.ofNat 57)) ∧
    (updateRateValue (exampleProps '.' 57) (constructor (exampleProps '.' 57))
      (constructor (exampleProps '.' 57)).unitRateValue).map
        (fun r => r.values.rate.map numberToString)
      = some (some "56.99999999999999".toList) := by
  decide!

/-- C9, as the code has it: with the locale separator `.` and the base offset
100, the display string of the stored rate 250 is `2.500`, in the constructor
too, and `setRate("2.5")` makes `unitRateValue` the string `2.5`. -/
theorem display_example (prevState : State) :
    getRateDisplayValue '.' (.num ((JSNumber.ofNat 250).divNat CUSTOM_UNIT_RATE_BASE_OFFSET))
      = "2.500".toList ∧
    (constructor (exampleProps '.' 250)).unitRateValue = "2.500".toList ∧
    (setRate (exampleProps '.' 250) "2.5".toList prevState).unitRateValue = "2.5".toList := by
  refine ⟨by decide!, by decide!, ?_⟩
  have h1 : rateValueRegex (exampleProps '.' 250).permittedSeparators "2.5".toList = true := by
    decide
  have h2 : getRateDisplayValue (exampleProps '.' 250).decimalSeparator (.str "2.5".toList)
      = "2.5".toList := by decide!
  unfold setRate
  simp only [h1, h2]
  simp

/-- C9 fails as stated: neither the display string of the stored rate 250 nor
the `unitRateValue` after `setRate("2.5")` is `2.50`. -/
theorem display_example_counterexample :
    getRateDisplayValue '.' (.num ((JSNumber.ofNat 250).divNat CUSTOM_UNIT_RATE_BASE_OFFSET))
      ≠ "2.50".toList ∧
    (setRate (exampleProps '.' 250) "2.5".toList
      (constructor (exampleProps '.' 250))).unitRateValue ≠ "2.50".toList := by
  decide!

/-- C7 at a policy without custom units: the constructor sets `unitRateID` to
the empty string and `componentDidUpdate` sets it to `undefined`; the other
four unit fields agree, for every policy. -/
theorem componentDidUpdate_unitRateID (props : Props) (state : State) :
    (constructor emptyProps).unitRateID = some [] ∧
    (componentDidUpdate true emptyProps (constructor emptyProps)).unitRateID = none ∧
    (componentDidUpdate true props state).unitID = (constructor props).unitID ∧
    (componentDidUpdate true props state).unitName = (constructor props).unitName ∧
    (componentDidUpdate true props state).unitValue = (constructor props).unitValue ∧
    (componentDidUpdate true props state).unitRateValue = (constructor props).unitRateValue :=
  ⟨rfl, rfl, rfl, rfl, rfl, rfl⟩

theorem run_append (props : Props) : ∀ (es fs : List Event) (c : Component),
    run props c (es ++ fs) =
      ((run props (run props c es).1 fs).1, (run props c es).2 ++ (run props (run props c es).1 fs).2) := by
  intro es
  induction es with
  | nil => intro fs c; simp [run]
  | cons e es ih =>
    intro fs c
    show run props c (e :: (es ++ fs)) = _
    simp only [run]
    rw [ih fs (step props c e).1]
    simp only [List.append_assoc]

/-- A burst of edits with less than 1000 ms between them makes no commit and
leaves the timer armed with the last `unitRateValue`, once there is an edit. -/
theorem run_editEvents (props : Props) : ∀ (edits : List (JSString × Nat)) (c : Component),
    (∀ p ∈ edits, p.2 < 1000) →
    (run props c (editEvents edits)).2 = [] ∧
      (run props c (editEvents edits)).1.state = editState props c.state edits := by
  intro edits
  induction edits with
  | nil => intro c _; exact ⟨rfl, rfl⟩
  | cons p ps ih =>
    intro c hgap
    have hp : p.2 < 1000 := hgap p (by simp)
    have hnot : ¬ 1000 ≤ p.2 := by omega
    have hps : ∀ q ∈ ps, q.2 < 1000 := fun q hq => hgap q (by simp [hq])
    simp only [editEvents, run, step, callDebounced, elapse, hnot, if_false, List.nil_append,
      editState]
    exact ih _ hps

/-- C5, as the code has it (with the debounce modelled from the spec): after
`N ≥ 1` edits with less than 1000 ms between consecutive edits and then at least
1000 ms without a call, `updateRateValue` has been invoked exactly once, with
the `unitRateValue` that the last edit produced; the request it makes, if the
value parses, is the only one. -/
theorem debounce_burst (props : Props) (c : Component) (edits : List (JSString × Nat))
    (last : JSString) (idle : Nat) (hgap : ∀ p ∈ edits, p.2 < 1000) (hidle : 1000 ≤ idle) :
    (run props c (editEvents edits ++ [Event.edit last, Event.elapse idle])).2 =
      [{ value := (setRate props last (editState props c.state edits)).unitRateValue
         request := updateRateValue props (setRate props last (editState props c.state edits))
           (setRate props last (editState props c.state edits)).unitRateValue }] := by
  obtain ⟨h1, h2⟩ := run_editEvents props edits c hgap
  rw [run_append, h1]
  simp only [run, step, callDebounced, elapse, hidle, if_true, List.nil_append, List.append_nil,
    h2]

theorem debounce_burst_witness :
    (run (exampleProps '.' 250) ⟨constructor (exampleProps '.' 250), none⟩
      (editEvents [("1".toList, 500), ("12".toList, 999)] ++
        [Event.edit "12.5".toList, Event.elapse 1000])).2 =
      [{ value := (setRate (exampleProps '.' 250) "12.5".toList
            (editState (exampleProps '.' 250) (constructor (exampleProps '.' 250))
              [("1".toList, 500), ("12".toList, 999)])).unitRateValue
         request := updateRateValue (exampleProps '.' 250)
           (setRate (exampleProps '.' 250) "12.5".toList
            (editState (exampleProps '.' 250) (constructor (exampleProps '.' 250))
              [("1".toList, 500), ("12".toList, 999)]))
           (setRate (exampleProps '.' 250) "12.5".toList
            (editState (exampleProps '.' 250) (constructor (exampleProps '.' 250))
              [("1".toList, 500), ("12".toList, 999)])).unitRateValue }] :=
  debounce_burst (exampleProps '.' 250) ⟨constructor (exampleProps '.' 250), none⟩
    [("1".toList, 500), ("12".toList, 999)] "12.5".toList 1000 (by decide) (by decide)

/-- C5 fails as stated: one edit that clears the field, followed by 1000 ms
without a call, invokes `updateRateValue` once and makes no request. -/
theorem debounce_burst_counterexample :
    (run (exampleProps '.' 250) ⟨constructor (exampleProps '.' 250), none⟩
      [Event.edit [], Event.elapse 1000]).2 = [{ value := [], request := none }] ∧
    ((run (exampleProps '.' 250) ⟨constructor (exampleProps '.' 250), none⟩
      [Event.edit [], Event.elapse 1000]).2.filterMap Commit.request).length = 0 := by
  decide!

/-- C6, as the code has it: a key event makes no commit in its step, whatever
the key. For `ArrowLeft` and `ArrowRight` it calls the debounced commit, which
arms the timer with the current `unitRateValue` and a full wait of 1000 ms:
over the time that then passes without a call, `updateRateValue` runs, once
and with that value, exactly when 1000 ms have elapsed. For any other key the
component, its pending timer included, is unchanged. -/
theorem keyPress_step (props : Props) (c : Component) (key : JSString) (ms1 ms2 : Nat) :
    step props c (.keyPress key) =
      (if key = "ArrowLeft".toList ∨ key = "ArrowRight".toList then
        { c with timer := some (c.state.unitRateValue, 1000) } else c, []) ∧
    (run props c [.keyPress key, .elapse ms1, .elapse ms2]).2 =
      (if key = "ArrowLeft".toList ∨ key = "ArrowRight".toList then
        (if 1000 ≤ ms1 + ms2 then
          [{ value := c.state.unitRateValue
             request := updateRateValue props c.state c.state.unitRateValue }]
         else [])
       else (run props c [.elapse ms1, .elapse ms2]).2) := by
  have hmem : key ∉ ["ArrowLeft".toList, "ArrowRight".toList] ↔
      ¬ (key = "ArrowLeft".toList ∨ key = "ArrowRight".toList) := by
    simp only [List.mem_cons, List.mem_singleton, List.not_mem_nil, or_false]
  have hstep : step props c (.keyPress key) =
      (if key = "ArrowLeft".toList ∨ key = "ArrowRight".toList then
        { c with timer := some (c.state.unitRateValue, 1000) } else c, []) := by
    show (debounceUpdateOnCursorMove c key, []) = _
    unfold debounceUpdateOnCursorMove callDebounced
    by_cases h : key = "ArrowLeft".toList ∨ key = "ArrowRight".toList
    · rw [if_neg (fun hn => hmem.mp hn h), if_pos h]
    · rw [if_pos (hmem.mpr h), if_neg h]
  refine ⟨hstep, ?_⟩
  have hrun : (run props c [.keyPress key, .elapse ms1, .elapse ms2]).2 =
      (step props c (.keyPress key)).2 ++
        (run props (step props c (.keyPress key)).1 [.elapse ms1, .elapse ms2]).2 := rfl
  rw [hrun, hstep]
  by_cases h : key = "ArrowLeft".toList ∨ key = "ArrowRight".toList
  · simp only [if_pos h, List.nil_append]
    by_cases h1 : 1000 ≤ ms1
    · have h2 : 1000 ≤ ms1 + ms2 := by omega
      simp only [run, step, elapse, h1, h2, if_true, List.append_nil]
    · by_cases h3 : 1000 - ms1 ≤ ms2
      · have h2 : 1000 ≤ ms1 + ms2 := by omega
        simp only [run, step, elapse, h1, h2, h3, if_true, if_false, List.append_nil,
          List.nil_append]
      · have h2 : ¬ 1000 ≤ ms1 + ms2 := by omega
        simp only [run, step, elapse, h1, h2, h3, if_false, List.append_nil]
  · simp only [if_neg h, List.nil_append]

/-- C6 fails as stated: the step of an `ArrowLeft` key event makes no commit,
and none is made in the 999 ms after it; the commit runs when 1000 ms have
passed. -/
theorem keyPress_step_counterexample :
    (step (exampleProps '.' 250) ⟨constructor (exampleProps '.' 250), none⟩
      (.keyPress "ArrowLeft".toList)).2 = [] ∧
    (run (exampleProps '.' 250) ⟨constructor (exampleProps '.' 250), none⟩
      [.keyPress "ArrowLeft".toList, .elapse 999]).2 = [] ∧
    ((run (exampleProps '.' 250) ⟨constructor (exampleProps '.' 250), none⟩
      [.keyPress "ArrowLeft".toList, .elapse 999, .elapse 1]).2.map Commit.value)
      = ["2.500".toList] := by
  decide!

end Reimburse
